import Mathlib

/-!
# liblsl 1.15.2, `src/sample.h`: the sample object model

A shallow embedding of the sample class of liblsl: the channel format tables, the typed and
untyped accessors, the in-place endian conversion and the intrusive reference count.

Conventions of the embedding.

* Memory is byte addressed: a buffer is a `List Nat`, one entry per byte. A typed array of a
  C type `T` is the buffer of its object representations, `sizeof(T)` bytes per element.
* A value of a C type is carried as its bit pattern, a natural number below `2 ^ (8 * sizeof)`.
* A member function that may throw returns an `outcome`: either it returned, or it threw, and in
  both cases the state reached is recorded, so that what a throwing call left behind is visible.
* `int` is 32 bits wide and wraps in the atomic reference count.
* `std::size_t` is 64 bits wide, `sizeof(float) = 4`, `sizeof(double) = 8` (the latter is the
  static assertion of line 33), and `BOOST_NO_INT64_T` is not defined (line 25 uses `uint64_t`
  unconditionally, so the header only builds where a 64 bit integer type exists).
-/

namespace lsl

/-! ## Target properties -/

/-- Byte order of the target, `lslboost::endian::order` restricted to the two values that the
static assertion of line 17 admits for `byteorder::native`. -/
inductive byteorder where
  | little
  | big
deriving DecidableEq, Repr

/-- Properties of the compilation target that `sample.h` depends on but does not fix. -/
structure target where
  /-- The value of `byteorder::native`. -/
  native : byteorder
  /-- The value of `sizeof(std::string)`. -/
  sizeof_string : Nat
  /-- The size of `std::string` fits the `uint8_t` entry of `format_sizes` that it initialises:
  list-initialisation with a constant that does not fit is ill-formed. -/
  sizeof_string_fits : sizeof_string < 256
deriving DecidableEq, Repr

/-- Line 18: `const int LSL_BYTE_ORDER = (byteorder::native == byteorder::little) ? 1234 : 4321;` -/
def LSL_BYTE_ORDER (P : target) : Int :=
  if P.native = byteorder.little then 1234 else 4321

/-- Width in bits of `std::size_t`. -/
def SIZE_T_BITS : Nat := 64

/-! ## Protocol constants and channel formats -/

/-- Line 36: `const uint8_t TAG_DEDUCED_TIMESTAMP = 1;` -/
def TAG_DEDUCED_TIMESTAMP : Nat := 1

/-- Line 37: `const uint8_t TAG_TRANSMITTED_TIMESTAMP = 2;` -/
def TAG_TRANSMITTED_TIMESTAMP : Nat := 2

/-- Modelled from the spec: the enumeration `lsl_channel_format_t` is declared in a header that
is not part of the sources at hand. The specification lists its tags as
undefined, float32, double64, string, int32, int16, int8, int64, in the order in which the
format tables of lines 40 to 49 are laid out. -/
inductive lsl_channel_format_t where
  | cft_undefined
  | cft_float32
  | cft_double64
  | cft_string
  | cft_int32
  | cft_int16
  | cft_int8
  | cft_int64
deriving DecidableEq, Repr

open lsl_channel_format_t

/-- Integer value of a format tag, the index used on the format tables. -/
def lsl_channel_format_t.toNat : lsl_channel_format_t → Nat
  | cft_undefined => 0
  | cft_float32 => 1
  | cft_double64 => 2
  | cft_string => 3
  | cft_int32 => 4
  | cft_int16 => 5
  | cft_int8 => 6
  | cft_int64 => 7

/-- Lines 40-41: `const uint8_t format_sizes[]`, with `sizeof(float) = 4`, `sizeof(double) = 8`,
`sizeof(int32_t) = 4`, `sizeof(int16_t) = 2` and `sizeof(int8_t) = 1`. -/
def format_sizes (P : target) : List Nat :=
  [0, 4, 8, P.sizeof_string, 4, 2, 1, 8]

/-- Lines 42-43: `const bool format_ieee754[]`, with `is_iec559` of float and double as
parameters. -/
def format_ieee754 (float_iec559 double_iec559 : Bool) : List Bool :=
  [false, float_iec559, double_iec559, false, false, false, false, false]

/-- Lines 44-47: `const bool format_subnormal[]`, with `has_denorm != denorm_absent` of float and
double as parameters. -/
def format_subnormal (float_denorm double_denorm : Bool) : List Bool :=
  [false, float_denorm, double_denorm, false, false, false, false, false]

/-- Line 48: `const bool format_integral[]`. -/
def format_integral : List Bool :=
  [false, false, false, false, true, true, true, true]

/-- Line 49: `const bool format_float[]`. -/
def format_float : List Bool :=
  [false, true, true, false, false, false, false, false]

/-- The expression `format_sizes[format_]`. -/
def format_size_of (P : target) (f : lsl_channel_format_t) : Nat :=
  (format_sizes P).getD f.toNat 0

/-- The expression `format_integral[format_]`. -/
def format_integral_of (f : lsl_channel_format_t) : Bool :=
  format_integral.getD f.toNat false

/-- The expression `format_float[format_]`. -/
def format_float_of (f : lsl_channel_format_t) : Bool :=
  format_float.getD f.toNat false

/-! ## C types, values and memory -/

/-- The properties of a numeric C++ type `T` that the accessor templates inspect:
`sizeof(T)`, `std::is_integral<T>::value`, `std::is_floating_point<T>::value`, and the signedness
that governs integer conversions. -/
structure ctype where
  sizeof : Nat
  is_integral : Bool
  is_floating_point : Bool
  is_signed : Bool
deriving DecidableEq, Repr

namespace ctype

def int8_t : ctype := ⟨1, true, false, true⟩
def int16_t : ctype := ⟨2, true, false, true⟩
def int32_t : ctype := ⟨4, true, false, true⟩
def int64_t : ctype := ⟨8, true, false, true⟩
def uint8_t : ctype := ⟨1, true, false, false⟩
def uint16_t : ctype := ⟨2, true, false, false⟩
def uint32_t : ctype := ⟨4, true, false, false⟩
def uint64_t : ctype := ⟨8, true, false, false⟩
def float : ctype := ⟨4, false, true, true⟩
def double : ctype := ⟨8, false, true, true⟩

/-- Number of value bits of the type. -/
def bits (T : ctype) : Nat := 8 * T.sizeof

/-- The integer denoted by the bit pattern `v` of an integral type (twos complement). -/
def toInt (T : ctype) (v : Nat) : Int :=
  if T.is_signed ∧ 2 ^ (T.bits - 1) ≤ v then (v : Int) - 2 ^ T.bits else (v : Int)

/-- The bit pattern with which an integral type holds the integer `z`, reduced modulo
`2 ^ bits`. -/
def ofInt (T : ctype) (z : Int) : Nat :=
  (z % 2 ^ T.bits).toNat

end ctype

/-- The conversions that the accessors use and that are not defined in `sample.h`: the built-in
conversions that involve a floating point type, and `to_string` and `from_string` of
`util/cast.hpp`. They are parameters of the embedding. -/
structure conversions where
  /-- C style cast from the first type to the second when one of them is floating point. -/
  fcast : ctype → ctype → Nat → Nat
  /-- The call `to_string(v)` for a value of type `T`. -/
  to_string : ctype → Nat → String
  /-- The call `from_string<T>(str)`. -/
  from_string : ctype → String → Nat

/-- The C style cast `(D)v` of a value `v` of type `S`. Between integral types it is the
conversion modulo `2 ^ bits`; every other case is delegated to the parameter. -/
def cast (C : conversions) (S D : ctype) (v : Nat) : Nat :=
  if S.is_integral ∧ D.is_integral then D.ofInt (S.toInt v) else C.fcast S D v

/-- The call `memcpy(dst, src, n)`: the first `n` bytes of `dst` are replaced by the first `n`
bytes of `src`. -/
def memcpy (dst src : List Nat) (n : Nat) : List Nat :=
  src.take n ++ dst.drop n

/-- The value that the bytes `bs` of an object represent in the given byte order. -/
def decode (o : byteorder) (bs : List Nat) : Nat :=
  match o with
  | byteorder.little => bs.foldr (fun b acc => b + 256 * acc) 0
  | byteorder.big => bs.foldl (fun acc b => 256 * acc + b) 0

/-- The `w` bytes that represent the value `v` in the given byte order. -/
def encode (o : byteorder) (w : Nat) (v : Nat) : List Nat :=
  match o with
  | byteorder.little => (List.range w).map (fun j => v / 256 ^ j % 256)
  | byteorder.big => ((List.range w).map (fun j => v / 256 ^ j % 256)).reverse

/-- Read `p[i]` through a pointer `T *p` to the start of `buf`. -/
def load (o : byteorder) (T : ctype) (buf : List Nat) (i : Nat) : Nat :=
  decode o ((buf.drop (i * T.sizeof)).take T.sizeof)

/-- Write `p[i] = v` through a pointer `T *p` to the start of `buf`. -/
def store (o : byteorder) (T : ctype) (buf : List Nat) (i : Nat) (v : Nat) : List Nat :=
  buf.take (i * T.sizeof) ++ encode o T.sizeof v ++ buf.drop (i * T.sizeof + T.sizeof)

/-! ## Exceptions -/

/-- The two exception classes thrown in `sample.h`, with their messages. -/
inductive exception where
  | invalid_argument (what : String)
  | runtime_error (what : String)
deriving DecidableEq, Repr

/-- Result of a call that may throw, together with the state it left. -/
inductive outcome (σ : Type) where
  | returned (st : σ)
  | thrown (e : exception) (st : σ)
deriving DecidableEq, Repr

/-! ## The sample -/

/-- The data members of `class sample` (lines 108 to 125). The payload that begins at `data_`
is held as its bytes; for a string formatted sample the payload is an array of `std::string`
objects, whose values are held in `strings_`. The freelist link and the factory pointer are
not part of the state examined here. -/
structure sample where
  /-- Bit pattern of the `double` time stamp. -/
  timestamp : Nat
  pushthrough : Bool
  format_ : lsl_channel_format_t
  num_channels_ : Nat
  refcount_ : Int
  data_ : List Nat
  strings_ : List String
deriving DecidableEq, Repr

/-- Line 140: `format_sizes[format_] * static_cast<std::size_t>(num_channels_)`, a product of
`std::size_t` values. -/
def datasize (P : target) (s : sample) : Nat :=
  (format_size_of P s.format_ * s.num_channels_) % 2 ^ SIZE_T_BITS

/-- The condition of lines 146-148 and 196-198 that selects the raw copy. -/
def raw_copy (P : target) (T : ctype) (f : lsl_channel_format_t) : Bool :=
  decide (T.sizeof = format_size_of P f) &&
    ((T.is_integral && format_integral_of f) || (T.is_floating_point && format_float_of f))

/-- The numeric loops of `assign_typed`, for an element type `F` of the payload:
`for (F *p = (F *)&data_, *e = p + num_channels_; p < e; *p++ = (F)*s++);`
with `k` iterations left and `i` elements done. -/
def assign_loop (C : conversions) (o : byteorder) (T F : ctype) (src : List Nat) :
    Nat → Nat → List Nat → List Nat
  | 0, _, data => data
  | k + 1, i, data =>
    assign_loop C o T F src k (i + 1) (store o F data i (cast C T F (load o T src i)))

/-- The string loop of `assign_typed` (lines 184-186): `*p++ = to_string(*s++)`. -/
def assign_string_loop (C : conversions) (o : byteorder) (T : ctype) (src : List Nat) :
    Nat → Nat → List String → List String
  | 0, _, strs => strs
  | k + 1, i, strs =>
    assign_string_loop C o T src k (i + 1) (strs.set i (C.to_string T (load o T src i)))

/-- Lines 145-192: `template <class T> sample &assign_typed(const T *s)`. -/
def assign_typed (C : conversions) (P : target) (T : ctype) (src : List Nat) (s : sample) :
    outcome sample :=
  if raw_copy P T s.format_ then
    outcome.returned { s with data_ := memcpy s.data_ src (datasize P s) }
  else
    match s.format_ with
    | cft_float32 =>
      outcome.returned
        { s with data_ := assign_loop C P.native T ctype.float src s.num_channels_ 0 s.data_ }
    | cft_double64 =>
      outcome.returned
        { s with data_ := assign_loop C P.native T ctype.double src s.num_channels_ 0 s.data_ }
    | cft_int8 =>
      outcome.returned
        { s with data_ := assign_loop C P.native T ctype.int8_t src s.num_channels_ 0 s.data_ }
    | cft_int16 =>
      outcome.returned
        { s with data_ := assign_loop C P.native T ctype.int16_t src s.num_channels_ 0 s.data_ }
    | cft_int32 =>
      outcome.returned
        { s with data_ := assign_loop C P.native T ctype.int32_t src s.num_channels_ 0 s.data_ }
    | cft_int64 =>
      outcome.returned
        { s with data_ := assign_loop C P.native T ctype.int64_t src s.num_channels_ 0 s.data_ }
    | cft_string =>
      outcome.returned
        { s with strings_ := assign_string_loop C P.native T src s.num_channels_ 0 s.strings_ }
    | _ => outcome.thrown (exception.invalid_argument "Unsupported channel format.") s

/-- The numeric loops of `retrieve_typed`, for an element type `F` of the payload:
`for (F *p = (F *)&data_, *e = p + num_channels_; p < e; *d++ = (T)*p++);` -/
def retrieve_loop (C : conversions) (o : byteorder) (T F : ctype) (data : List Nat) :
    Nat → Nat → List Nat → List Nat
  | 0, _, d => d
  | k + 1, i, d =>
    retrieve_loop C o T F data k (i + 1) (store o T d i (cast C F T (load o F data i)))

/-- The string loop of `retrieve_typed` (lines 229-231): `*d++ = from_string<T>(*p++)`. -/
def retrieve_string_loop (C : conversions) (o : byteorder) (T : ctype) (strs : List String) :
    Nat → Nat → List Nat → List Nat
  | 0, _, d => d
  | k + 1, i, d =>
    retrieve_string_loop C o T strs k (i + 1) (store o T d i (C.from_string T (strs.getD i "")))

/-- Lines 195-237: `template <class T> sample &retrieve_typed(T *d)`. The member function is
not const, so the sample is threaded through next to the destination. -/
def retrieve_typed (C : conversions) (P : target) (T : ctype) (d : List Nat) (s : sample) :
    outcome (sample × List Nat) :=
  if raw_copy P T s.format_ then
    outcome.returned (s, memcpy d s.data_ (datasize P s))
  else
    match s.format_ with
    | cft_float32 =>
      outcome.returned (s, retrieve_loop C P.native T ctype.float s.data_ s.num_channels_ 0 d)
    | cft_double64 =>
      outcome.returned (s, retrieve_loop C P.native T ctype.double s.data_ s.num_channels_ 0 d)
    | cft_int8 =>
      outcome.returned (s, retrieve_loop C P.native T ctype.int8_t s.data_ s.num_channels_ 0 d)
    | cft_int16 =>
      outcome.returned (s, retrieve_loop C P.native T ctype.int16_t s.data_ s.num_channels_ 0 d)
    | cft_int32 =>
      outcome.returned (s, retrieve_loop C P.native T ctype.int32_t s.data_ s.num_channels_ 0 d)
    | cft_int64 =>
      outcome.returned (s, retrieve_loop C P.native T ctype.int64_t s.data_ s.num_channels_ 0 d)
    | cft_string =>
      outcome.returned (s, retrieve_string_loop C P.native T s.strings_ s.num_channels_ 0 d)
    | _ => outcome.thrown (exception.invalid_argument "Unsupported channel format.") (s, d)

/-- Lines 248-254: `sample &assign_untyped(const void *newdata)`. -/
def assign_untyped (P : target) (newdata : List Nat) (s : sample) : outcome sample :=
  if s.format_ ≠ cft_string then
    outcome.returned { s with data_ := memcpy s.data_ newdata (datasize P s) }
  else
    outcome.thrown
      (exception.invalid_argument "Cannot assign untyped data to a string-formatted sample.") s

/-- Lines 257-264: `sample &retrieve_untyped(void *newdata)`. -/
def retrieve_untyped (P : target) (newdata : List Nat) (s : sample) :
    outcome (sample × List Nat) :=
  if s.format_ ≠ cft_string then
    outcome.returned (s, memcpy newdata s.data_ (datasize P s))
  else
    outcome.thrown
      (exception.invalid_argument "Cannot retrieve untyped data from a string-formatted sample.")
      (s, newdata)

/-! ## Endian conversion -/

/-- Modelled from the spec: `lslboost::endian::endian_reverse_inplace` is defined in a header
that is not part of the sources at hand. The specification gives it as reversing the byte order
of a fixed-width element in place, a pure bit pattern operation. Here it acts on the object of
type `T` at element index `i` of the buffer. -/
def lslboost.endian.endian_reverse_inplace (T : ctype) (buf : List Nat) (i : Nat) : List Nat :=
  buf.take (i * T.sizeof) ++ ((buf.drop (i * T.sizeof)).take T.sizeof).reverse ++
    buf.drop (i * T.sizeof + T.sizeof)

/-- Lines 21-29: the template `endian_reverse_inplace` with its two specialisations, which
reverse a `double` as a `uint64_t` and a `float` as a `uint32_t`. -/
def endian_reverse_inplace (T : ctype) (buf : List Nat) (i : Nat) : List Nat :=
  if T = ctype.double then lslboost.endian.endian_reverse_inplace ctype.uint64_t buf i
  else if T = ctype.float then lslboost.endian.endian_reverse_inplace ctype.uint32_t buf i
  else lslboost.endian.endian_reverse_inplace T buf i

/-- The loops of `convert_endian`, for an element type `T`:
`for (T *p = (T *)data, *e = p + num_channels_; p < e; endian_reverse_inplace(*p++));`
with `k` iterations left and `i` elements done. -/
def convert_endian_loop (T : ctype) : Nat → Nat → List Nat → List Nat
  | 0, _, data => data
  | k + 1, i, data => convert_endian_loop T k (i + 1) (endian_reverse_inplace T data i)

/-- Lines 277-305: `void convert_endian(void *data) const`, a switch over
`format_sizes[format_]` with the case labels 1, `sizeof(int16_t)`, `sizeof(int32_t)` and
`sizeof(int64_t)`. -/
def convert_endian (P : target) (s : sample) (data : List Nat) : outcome (List Nat) :=
  if format_size_of P s.format_ = 1 then
    outcome.returned data
  else if format_size_of P s.format_ = ctype.int16_t.sizeof then
    outcome.returned (convert_endian_loop ctype.int16_t s.num_channels_ 0 data)
  else if format_size_of P s.format_ = ctype.int32_t.sizeof then
    outcome.returned (convert_endian_loop ctype.int32_t s.num_channels_ 0 data)
  else if format_size_of P s.format_ = ctype.int64_t.sizeof then
    outcome.returned (convert_endian_loop ctype.int64_t s.num_channels_ 0 data)
  else
    outcome.thrown
      (exception.runtime_error "Unsupported channel format for endian conversion.") data

/-- The buffer `buf` with each of its first `k` elements of `w` bytes reversed in place: the
closed form against which the loops of `convert_endian` are checked. -/
def reverse_elements (w : Nat) : Nat → List Nat → List Nat
  | 0, buf => buf
  | k + 1, buf => (buf.take w).reverse ++ reverse_elements w k (buf.drop w)

/-! ## Construction and reference counting -/

set_option linter.dupNamespace false in
/-- Lines 322-328: the constructor, run on the raw storage `mem` of the payload. It sets the
format, the channel count and a reference count of zero; the member initialisers give a zero
time stamp, a cleared pushthrough flag and a zero first payload byte; a string formatted sample
gets `num_channels` empty strings. -/
def sample.sample (fmt : lsl_channel_format_t) (num_channels : Nat) (mem : List Nat) : sample :=
  { timestamp := 0
    pushthrough := false
    format_ := fmt
    num_channels_ := num_channels
    refcount_ := 0
    data_ := mem.set 0 0
    strings_ := if fmt = cft_string then List.replicate num_channels "" else [] }

/-- The value that a 32 bit twos complement `int` holds for the integer `z`, in
`[-2 ^ 31, 2 ^ 31)`: the arithmetic of `std::atomic<int>` (line 119) wraps around silently. -/
def int_wrap (z : Int) : Int :=
  (z + 2147483648) % 4294967296 - 2147483648

/-- Lines 331-333: `s->refcount_.fetch_add(1, std::memory_order_relaxed);` -/
def intrusive_ptr_add_ref (s : sample) : sample :=
  { s with refcount_ := int_wrap (s.refcount_ + 1) }

/-- Lines 336-341: `fetch_sub(1)` on the reference count; the flag tells whether the value
before the decrement was 1, in which case `s->factory_->reclaim_sample(s)` is called. -/
def intrusive_ptr_release (s : sample) : sample × Bool :=
  ({ s with refcount_ := int_wrap (s.refcount_ - 1) }, decide (s.refcount_ = 1))

/-- The two operations on the reference count. -/
inductive refop where
  | add_ref
  | release
deriving DecidableEq, Repr

/-- One operation on a sample: the sample afterwards and whether it was reclaimed. -/
def refstep (s : sample) : refop → sample × Bool
  | refop.add_ref => (intrusive_ptr_add_ref s, false)
  | refop.release => intrusive_ptr_release s

/-- The sample after a sequence of reference count operations. -/
def apply_ops (s : sample) : List refop → sample
  | [] => s
  | op :: ops => apply_ops (refstep s op).1 ops

/-- Number of calls of `reclaim_sample` during a sequence of reference count operations. -/
def reclaim_calls (s : sample) : List refop → Nat
  | [] => 0
  | op :: ops => (if (refstep s op).2 then 1 else 0) + reclaim_calls (refstep s op).1 ops

/-- No `release` of the sequence is applied while the reference count is zero. -/
def release_guarded (s : sample) : List refop → Prop
  | [] => True
  | op :: ops => (op = refop.release → s.refcount_ ≠ 0) ∧ release_guarded (refstep s op).1 ops

instance (s : sample) (ops : List refop) : Decidable (release_guarded s ops) := by
  induction ops generalizing s with
  | nil => exact isTrue trivial
  | cons op ops ih => unfold release_guarded; exact instDecidableAnd

/-- A numeric type matches a format exactly: same byte size and same numeric class. -/
def matches_format (P : target) (T : ctype) (f : lsl_channel_format_t) : Prop :=
  T.sizeof = format_size_of P f ∧ T.is_integral = format_integral_of f ∧
    T.is_floating_point = format_float_of f

instance (P : target) (T : ctype) (f : lsl_channel_format_t) : Decidable (matches_format P T f) := by
  unfold matches_format; exact instDecidableAnd

/-- The formats that hold fixed-width numeric elements. -/
def numeric_formats : List lsl_channel_format_t :=
  [cft_float32, cft_double64, cft_int32, cft_int16, cft_int8, cft_int64]

/-- The formats that have a case in the switches of `assign_typed` and `retrieve_typed`. -/
def switch_formats : List lsl_channel_format_t :=
  [cft_float32, cft_double64, cft_int8, cft_int16, cft_int32, cft_int64, cft_string]

/-- A target with the properties of x86-64 Linux with libstdc++: little endian, and
`sizeof(std::string) = 32`. -/
def x86_64_linux : target := ⟨byteorder.little, 32, by decide⟩

/-- The conversion switch of `assign_typed` (lines 151-189) on its own, as the raw copy is
compared with it: what the function does when the condition of line 146 fails. -/
def assign_typed_switch (C : conversions) (P : target) (T : ctype) (src : List Nat)
    (s : sample) : outcome sample :=
  match s.format_ with
  | cft_float32 =>
    outcome.returned
      { s with data_ := assign_loop C P.native T ctype.float src s.num_channels_ 0 s.data_ }
  | cft_double64 =>
    outcome.returned
      { s with data_ := assign_loop C P.native T ctype.double src s.num_channels_ 0 s.data_ }
  | cft_int8 =>
    outcome.returned
      { s with data_ := assign_loop C P.native T ctype.int8_t src s.num_channels_ 0 s.data_ }
  | cft_int16 =>
    outcome.returned
      { s with data_ := assign_loop C P.native T ctype.int16_t src s.num_channels_ 0 s.data_ }
  | cft_int32 =>
    outcome.returned
      { s with data_ := assign_loop C P.native T ctype.int32_t src s.num_channels_ 0 s.data_ }
  | cft_int64 =>
    outcome.returned
      { s with data_ := assign_loop C P.native T ctype.int64_t src s.num_channels_ 0 s.data_ }
  | cft_string =>
    outcome.returned
      { s with strings_ := assign_string_loop C P.native T src s.num_channels_ 0 s.strings_ }
  | _ => outcome.thrown (exception.invalid_argument "Unsupported channel format.") s

/-- The conversion switch of `retrieve_typed` (lines 201-234) on its own, as the raw copy is
compared with it: what the function does when the condition of line 196 fails. -/
def retrieve_typed_switch (C : conversions) (P : target) (T : ctype) (d : List Nat)
    (s : sample) : outcome (sample × List Nat) :=
  match s.format_ with
  | cft_float32 =>
    outcome.returned (s, retrieve_loop C P.native T ctype.float s.data_ s.num_channels_ 0 d)
  | cft_double64 =>
    outcome.returned (s, retrieve_loop C P.native T ctype.double s.data_ s.num_channels_ 0 d)
  | cft_int8 =>
    outcome.returned (s, retrieve_loop C P.native T ctype.int8_t s.data_ s.num_channels_ 0 d)
  | cft_int16 =>
    outcome.returned (s, retrieve_loop C P.native T ctype.int16_t s.data_ s.num_channels_ 0 d)
  | cft_int32 =>
    outcome.returned (s, retrieve_loop C P.native T ctype.int32_t s.data_ s.num_channels_ 0 d)
  | cft_int64 =>
    outcome.returned (s, retrieve_loop C P.native T ctype.int64_t s.data_ s.num_channels_ 0 d)
  | cft_string =>
    outcome.returned (s, retrieve_string_loop C P.native T s.strings_ s.num_channels_ 0 d)
  | _ => outcome.thrown (exception.invalid_argument "Unsupported channel format.") (s, d)

/-- The element type through which the switches of `assign_typed` and `retrieve_typed` access
the payload of an integer format. -/
def integer_element_type : lsl_channel_format_t → Option ctype
  | cft_int8 => some ctype.int8_t
  | cft_int16 => some ctype.int16_t
  | cft_int32 => some ctype.int32_t
  | cft_int64 => some ctype.int64_t
  | _ => none

/-- The bytes of `k` consecutive elements of `w` bytes, from element index `i` on, where the
element at index `j` holds the value `g j`: the closed form against which the conversion loops
are checked. -/
def encode_elements (o : byteorder) (w : Nat) (g : Nat → Nat) : Nat → Nat → List Nat
  | 0, _ => []
  | k + 1, i => encode o w (g i) ++ encode_elements o w g k (i + 1)

/-- The state that a call left, whether it returned or threw. -/
def outcome.state {σ : Type} : outcome σ → σ
  | outcome.returned st => st
  | outcome.thrown _ st => st

/-- Two samples agree in every member other than the payload. -/
def same_but_payload (a b : sample) : Prop :=
  a.timestamp = b.timestamp ∧ a.pushthrough = b.pushthrough ∧ a.format_ = b.format_ ∧
    a.num_channels_ = b.num_channels_ ∧ a.refcount_ = b.refcount_

/-- The conversions that stand in for the parameters where a concrete instance is needed and
no floating point or string conversion takes part. -/
def no_conversions : conversions := ⟨fun _ _ v => v, fun _ _ => "", fun _ _ => 0⟩

/-! ## The factory -/

/-- Lines 74-76: `static uint32_t ensure_multiple(uint32_t v, unsigned base)`, that is
`(v % base) ? v - (v % base) + base : v` in 32 bit unsigned arithmetic, for arguments below
`2 ^ 32`. The difference `v - (v % base)` never wraps, the sum may. A `base` of zero is a
division by zero in the source and is outside the embedding. -/
def factory.ensure_multiple (v base : Nat) : Nat :=
  if v % base ≠ 0 then (v - v % base + base) % 2 ^ 32 else v

/-! ## Theorems -/

/-! ### Format tables -/

theorem format_size_of_cases (P : target) (f : lsl_channel_format_t) :
    format_size_of P f =
      match f with
      | cft_undefined => 0
      | cft_float32 => 4
      | cft_double64 => 8
      | cft_string => P.sizeof_string
      | cft_int32 => 4
      | cft_int16 => 2
      | cft_int8 => 1
      | cft_int64 => 8 := by
  cases f <;> rfl

theorem raw_copy_of_matches (P : target) (T : ctype) (f : lsl_channel_format_t)
    (hf : f ∈ numeric_formats) (hT : matches_format P T f) : raw_copy P T f = true := by
  obtain ⟨h1, h2, h3⟩ := hT
  simp only [raw_copy, h1, h2, h3, decide_True, Bool.true_and, Bool.and_self]
  simp only [numeric_formats, List.mem_cons, List.mem_singleton, List.not_mem_nil, or_false] at hf
  rcases hf with h | h | h | h | h | h <;> subst h <;> rfl

theorem raw_copy_undefined (P : target) (T : ctype) : raw_copy P T cft_undefined = false := by
  simp [raw_copy, format_integral_of, format_float_of, format_integral, format_float,
    lsl_channel_format_t.toNat]

theorem raw_copy_string (P : target) (T : ctype) : raw_copy P T cft_string = false := by
  simp [raw_copy, format_integral_of, format_float_of, format_integral, format_float,
    lsl_channel_format_t.toNat]

/-! ### Raw copies -/

theorem memcpy_take (dst src : List Nat) (n : Nat) (h : n ≤ src.length) :
    (memcpy dst src n).take n = src.take n := by
  have hl : (src.take n).length = n := by simp [List.length_take, h]
  unfold memcpy
  rw [List.take_append_of_le_length (by omega)]
  rw [List.take_of_length_le (by omega)]

theorem memcpy_drop (dst src : List Nat) (n : Nat) (h : n ≤ src.length) :
    (memcpy dst src n).drop n = dst.drop n := by
  have hl : (src.take n).length = n := by simp [List.length_take, h]
  unfold memcpy
  rw [List.drop_append_of_le_length (by omega)]
  rw [List.drop_of_length_le (by omega)]
  simp

theorem memcpy_memcpy_take (d data src : List Nat) (n : Nat) (h : n ≤ src.length) :
    (memcpy d (memcpy data src n) n).take n = src.take n := by
  have hl : n ≤ (memcpy data src n).length := by
    simp only [memcpy, List.length_append, List.length_take]
    omega
  rw [memcpy_take _ _ _ hl, memcpy_take _ _ _ h]

theorem memcpy_memcpy_drop (d data src : List Nat) (n : Nat) (h : n ≤ src.length) :
    (memcpy d (memcpy data src n) n).drop n = d.drop n := by
  have hl : n ≤ (memcpy data src n).length := by
    simp only [memcpy, List.length_append, List.length_take]
    omega
  rw [memcpy_drop _ _ _ hl]

theorem datasize_exact (P : target) (s : sample) (hn : s.num_channels_ < 2 ^ 32) :
    datasize P s = s.num_channels_ * format_size_of P s.format_ := by
  have hw : format_size_of P s.format_ < 256 := by
    have := P.sizeof_string_fits
    rw [format_size_of_cases]
    cases s.format_ <;> simp only <;> omega
  have hlt : format_size_of P s.format_ * s.num_channels_ < 2 ^ SIZE_T_BITS := by
    have : format_size_of P s.format_ * s.num_channels_ ≤ 255 * 2 ^ 32 :=
      Nat.mul_le_mul (by omega) (by omega)
    simp only [SIZE_T_BITS]
    omega
  unfold datasize
  rw [Nat.mod_eq_of_lt hlt, Nat.mul_comm]

theorem memcpy_length (dst src : List Nat) (n : Nat) (h : n ≤ src.length) (hd : n ≤ dst.length) :
    (memcpy dst src n).length = dst.length := by
  simp only [memcpy, List.length_append, List.length_take, List.length_drop]
  omega

theorem take_drop_eq_append (l x : List Nat) (n : Nat) (h : l.take n = x) :
    l = x ++ l.drop n := by
  conv_lhs => rw [← List.take_append_drop n l]
  rw [h]

theorem load_append_left (o : byteorder) (T : ctype) (x r : List Nat) (i : Nat)
    (h : i * T.sizeof + T.sizeof ≤ x.length) : load o T (x ++ r) i = load o T x i := by
  unfold load
  rw [List.drop_append_of_le_length (by omega)]
  rw [List.take_append_of_le_length (by simp only [List.length_drop]; omega)]

/-! ### C1: typed round trip with the matching type -/

/-- C1: on a sample of a numeric format with `n` channels, for a type `T` of the same byte size
and numeric class as the format and an array `x` of `n` values of `T`, `assign_typed<T>(x)`
followed by `retrieve_typed<T>(d)` returns normally and leaves the first `n` elements of `d`
equal to `x` byte for byte, hence element for element; the rest of `d` and the sizes of the
payload and of `d` are as before. -/
theorem assign_retrieve_typed_same_type (C : conversions) (P : target) (T : ctype) (s : sample)
    (x d : List Nat)
    (hf : s.format_ ∈ numeric_formats) (hT : matches_format P T s.format_)
    (hn : s.num_channels_ < 2 ^ 32)
    (hx : x.length = s.num_channels_ * T.sizeof)
    (hd : s.num_channels_ * T.sizeof ≤ d.length)
    (hp : s.num_channels_ * T.sizeof ≤ s.data_.length) :
    ∃ s1 d1, assign_typed C P T x s = outcome.returned s1 ∧
      retrieve_typed C P T d s1 = outcome.returned (s1, d1) ∧
      d1 = x ++ d.drop (s.num_channels_ * T.sizeof) ∧
      (d.length = x.length → d1 = x) ∧
      (∀ i, i < s.num_channels_ → load P.native T d1 i = load P.native T x i) ∧
      s1.data_.length = s.data_.length ∧ d1.length = d.length := by
  have hraw : raw_copy P T s.format_ = true := raw_copy_of_matches P T s.format_ hf hT
  have hk : datasize P s = s.num_channels_ * T.sizeof := by
    rw [datasize_exact P s hn, hT.1]
  have hxk : s.num_channels_ * T.sizeof ≤ x.length := by omega
  have hd1 : memcpy d (memcpy s.data_ x (s.num_channels_ * T.sizeof)) (s.num_channels_ * T.sizeof)
      = x ++ d.drop (s.num_channels_ * T.sizeof) := by
    have h1 := memcpy_memcpy_take d s.data_ x _ hxk
    have h2 := memcpy_memcpy_drop d s.data_ x _ hxk
    have hxt : x.take (s.num_channels_ * T.sizeof) = x := List.take_of_length_le (by omega)
    rw [hxt] at h1
    have h3 := take_drop_eq_append _ x _ h1
    rw [h2] at h3
    exact h3
  have hlen1 : (memcpy s.data_ x (s.num_channels_ * T.sizeof)).length = s.data_.length :=
    memcpy_length _ _ _ hxk hp
  refine ⟨{ s with data_ := memcpy s.data_ x (s.num_channels_ * T.sizeof) },
    x ++ d.drop (s.num_channels_ * T.sizeof), ?_, ?_, rfl, ?_, ?_, hlen1, ?_⟩
  · simp only [assign_typed, hraw, if_true, hk]
  · simp only [retrieve_typed, hraw, if_true]
    have hk2 : datasize P { s with data_ := memcpy s.data_ x (s.num_channels_ * T.sizeof) }
        = s.num_channels_ * T.sizeof := hk
    rw [hk2, hd1]
  · intro hdx
    rw [List.drop_of_length_le (by omega), List.append_nil]
  · intro i hi
    apply load_append_left
    have : (i + 1) * T.sizeof ≤ s.num_channels_ * T.sizeof := Nat.mul_le_mul_right _ hi
    rw [Nat.add_mul, Nat.one_mul] at this
    omega
  · simp only [List.length_append, List.length_drop]
    omega

/-- Witness for `assign_retrieve_typed_same_type`: a three channel int16 sample, `T = int16_t`. -/
theorem assign_retrieve_typed_same_type_witness :
    ∃ s1 d1,
      assign_typed ⟨fun _ _ v => v, fun _ _ => "", fun _ _ => 0⟩ x86_64_linux ctype.int16_t
        [1, 2, 3, 4, 255, 128] (sample.sample cft_int16 3 [9, 9, 9, 9, 9, 9])
        = outcome.returned s1 ∧
      retrieve_typed ⟨fun _ _ v => v, fun _ _ => "", fun _ _ => 0⟩ x86_64_linux ctype.int16_t
        [7, 7, 7, 7, 7, 7, 7, 7] s1 = outcome.returned (s1, d1) ∧
      d1 = [1, 2, 3, 4, 255, 128, 7, 7] := by
  obtain ⟨s1, d1, h1, h2, h3, _⟩ :=
    assign_retrieve_typed_same_type ⟨fun _ _ v => v, fun _ _ => "", fun _ _ => 0⟩ x86_64_linux
      ctype.int16_t (sample.sample cft_int16 3 [9, 9, 9, 9, 9, 9]) [1, 2, 3, 4, 255, 128]
      [7, 7, 7, 7, 7, 7, 7, 7] (by decide) (by decide) (by decide) (by decide) (by decide)
      (by decide)
  exact ⟨s1, d1, h1, h2, by rw [h3]; rfl⟩

/-! ### C3 and C4: untyped access -/

/-- C3: `assign_untyped` and `retrieve_untyped` throw if and only if the format of the sample is
string, and what they throw is `std::invalid_argument`; for every other format tag, undefined
included, they return. A throwing `assign_untyped` leaves the sample as it was, and a throwing
`retrieve_untyped` leaves the sample and the destination buffer as they were. -/
theorem untyped_access_throws_iff_string (P : target) (s : sample) (newdata : List Nat) :
    ((∃ e st, assign_untyped P newdata s = outcome.thrown e st) ↔ s.format_ = cft_string) ∧
    ((∃ e st, retrieve_untyped P newdata s = outcome.thrown e st) ↔ s.format_ = cft_string) ∧
    (∀ e st, assign_untyped P newdata s = outcome.thrown e st →
      e = exception.invalid_argument "Cannot assign untyped data to a string-formatted sample." ∧
        st = s) ∧
    (∀ e st, retrieve_untyped P newdata s = outcome.thrown e st →
      e = exception.invalid_argument
          "Cannot retrieve untyped data from a string-formatted sample." ∧
        st = (s, newdata)) ∧
    (s.format_ ≠ cft_string →
      (∃ s1, assign_untyped P newdata s = outcome.returned s1) ∧
      (∃ r, retrieve_untyped P newdata s = outcome.returned r)) ∧
    (s.format_ = cft_undefined →
      (∃ s1, assign_untyped P newdata s = outcome.returned s1) ∧
      (∃ r, retrieve_untyped P newdata s = outcome.returned r)) := by
  by_cases h : s.format_ = cft_string
  · simp only [assign_untyped, retrieve_untyped, h, ne_eq, not_true_eq_false, if_false,
      outcome.thrown.injEq, exists_and_left, exists_eq', and_self, true_iff, reduceCtorEq,
      exists_false, and_false, false_implies, and_true, true_and]
    exact ⟨fun e st h1 => ⟨h1.1.symm, h1.2.symm⟩, fun e st h1 => ⟨h1.1.symm, h1.2.symm⟩⟩
  · refine ⟨?_, ?_, ?_, ?_, ?_, ?_⟩ <;> simp [assign_untyped, retrieve_untyped, h]

/-- C4: on a sample of a non-string format, for a source buffer `b` of at least `datasize()`
bytes, `assign_untyped(b)` followed by `retrieve_untyped(d)` returns normally and leaves in `d`
the first `datasize()` bytes of `b`, in order, followed by the bytes that `d` held past its
first `datasize()` bytes; the sample is not changed by the retrieval. -/
theorem assign_retrieve_untyped_copies_datasize (P : target) (s : sample) (b d : List Nat)
    (hf : s.format_ ≠ cft_string)
    (hb : datasize P s ≤ b.length)
    (hd : datasize P s ≤ d.length)
    (hp : datasize P s ≤ s.data_.length) :
    ∃ s1 d1, assign_untyped P b s = outcome.returned s1 ∧
      retrieve_untyped P d s1 = outcome.returned (s1, d1) ∧
      d1.take (datasize P s) = b.take (datasize P s) ∧
      d1.drop (datasize P s) = d.drop (datasize P s) ∧
      (∀ i, i < datasize P s → d1[i]? = b[i]?) ∧
      (∀ i, datasize P s ≤ i → d1[i]? = d[i]?) ∧
      d1.length = d.length ∧ s1.data_.length = s.data_.length := by
  have hlen1 : (memcpy s.data_ b (datasize P s)).length = s.data_.length :=
    memcpy_length _ _ _ hb hp
  have ht := memcpy_memcpy_take d s.data_ b _ hb
  have hdr := memcpy_memcpy_drop d s.data_ b _ hb
  have hk : datasize P { s with data_ := memcpy s.data_ b (datasize P s) } = datasize P s := rfl
  refine ⟨{ s with data_ := memcpy s.data_ b (datasize P s) },
    memcpy d (memcpy s.data_ b (datasize P s)) (datasize P s), ?_, ?_, ht, hdr, ?_, ?_, ?_,
    hlen1⟩
  · simp only [assign_untyped, hf, ne_eq, not_false_eq_true, if_true]
  · simp only [retrieve_untyped, hf, ne_eq, not_false_eq_true, if_true, hk]
  · intro i hi
    have h1 := congrArg (fun l => l[i]?) ht
    simp only [List.getElem?_take, hi, if_true] at h1
    exact h1
  · intro i hi
    have h1 := congrArg (fun l => l[i - datasize P s]?) hdr
    simp only [List.getElem?_drop] at h1
    rw [Nat.add_sub_cancel' hi] at h1
    exact h1
  · apply memcpy_length
    · omega
    · exact hd

/-- Witness for `assign_retrieve_untyped_copies_datasize`: a two channel int16 sample. -/
theorem assign_retrieve_untyped_copies_datasize_witness :
    ∃ s1 d1, assign_untyped x86_64_linux [1, 2, 3, 4, 5] (sample.sample cft_int16 2 [9, 9, 9, 9])
        = outcome.returned s1 ∧
      retrieve_untyped x86_64_linux [7, 7, 7, 7, 7, 7] s1 = outcome.returned (s1, d1) ∧
      d1.take 4 = [1, 2, 3, 4] ∧ d1.drop 4 = [7, 7] := by
  obtain ⟨s1, d1, h1, h2, h3, h4, _⟩ :=
    assign_retrieve_untyped_copies_datasize x86_64_linux (sample.sample cft_int16 2 [9, 9, 9, 9])
      [1, 2, 3, 4, 5] [7, 7, 7, 7, 7, 7] (by decide) (by decide) (by decide) (by decide)
  exact ⟨s1, d1, h1, h2, h3, h4⟩

/-! ### C7: the payload size -/

/-- C7: for every format tag and every 32 bit channel count `n`, `datasize()` is the exact
product of `n` and the byte size of the format, without wraparound in the 64 bit `size_t`; the
byte size is 0 for undefined, 4 for float32, 8 for double64, 4 for int32, 2 for int16, 1 for
int8, 8 for int64 and `sizeof(std::string)` for string. -/
theorem datasize_is_count_times_size (P : target) (s : sample)
    (hn : s.num_channels_ < 2 ^ 32) :
    datasize P s = s.num_channels_ * format_size_of P s.format_ ∧
    (format_sizes P)[s.format_.toNat]? = some (format_size_of P s.format_) ∧
    format_size_of P s.format_ =
      (match s.format_ with
      | cft_undefined => 0
      | cft_float32 => 4
      | cft_double64 => 8
      | cft_string => P.sizeof_string
      | cft_int32 => 4
      | cft_int16 => 2
      | cft_int8 => 1
      | cft_int64 => 8) := by
  refine ⟨datasize_exact P s hn, ?_, ?_⟩
  · cases s.format_ <;> rfl
  · exact format_size_of_cases P s.format_

/-- Witness for `datasize_is_count_times_size`: a string sample of 10000 channels. -/
theorem datasize_is_count_times_size_witness :
    datasize x86_64_linux (sample.sample cft_string 10000 []) = 10000 * 32 := by
  have h := (datasize_is_count_times_size x86_64_linux (sample.sample cft_string 10000 [])
    (by decide)).1
  rw [h]
  rfl

/-! ### C8: the time stamp tags -/

/-- C8, as the code has it: the tag byte value 1 is `TAG_DEDUCED_TIMESTAMP` and the tag byte
value 2 is `TAG_TRANSMITTED_TIMESTAMP`; the two tags differ and both fit a byte. -/
theorem timestamp_tag_values :
    TAG_DEDUCED_TIMESTAMP = 1 ∧ TAG_TRANSMITTED_TIMESTAMP = 2 ∧
    TAG_DEDUCED_TIMESTAMP ≠ TAG_TRANSMITTED_TIMESTAMP ∧
    TAG_DEDUCED_TIMESTAMP < 256 ∧ TAG_TRANSMITTED_TIMESTAMP < 256 := by
  decide

/-- C8, as stated, fails: it is not the case that `TAG_TRANSMITTED_TIMESTAMP = 1` and
`TAG_DEDUCED_TIMESTAMP = 2`. -/
theorem timestamp_tag_values_not_as_stated :
    ¬ (TAG_TRANSMITTED_TIMESTAMP = 1 ∧ TAG_DEDUCED_TIMESTAMP = 2) := by
  decide

/-! ### Endian conversion -/

theorem endian_reverse_inplace_eq (T : ctype) (buf : List Nat) (i : Nat) :
    endian_reverse_inplace T buf i =
      buf.take (i * T.sizeof) ++ ((buf.drop (i * T.sizeof)).take T.sizeof).reverse ++
        buf.drop (i * T.sizeof + T.sizeof) := by
  unfold endian_reverse_inplace
  split
  · next h => subst h; rfl
  · split
    · next h => subst h; rfl
    · rfl

theorem endian_reverse_inplace_append (T : ctype) (pre rest : List Nat) (i : Nat)
    (hpre : pre.length = i * T.sizeof) :
    endian_reverse_inplace T (pre ++ rest) i =
      (pre ++ (rest.take T.sizeof).reverse) ++ rest.drop T.sizeof := by
  rw [endian_reverse_inplace_eq, ← hpre, List.take_left, List.drop_left, ← List.drop_drop,
    List.drop_left]

theorem convert_endian_loop_eq (T : ctype) (k : Nat) :
    ∀ (i : Nat) (pre rest : List Nat), pre.length = i * T.sizeof → k * T.sizeof ≤ rest.length →
      convert_endian_loop T k i (pre ++ rest) = pre ++ reverse_elements T.sizeof k rest := by
  induction k with
  | zero => intro i pre rest _ _; rfl
  | succ k ih =>
    intro i pre rest hpre hlen
    rw [Nat.add_mul, Nat.one_mul] at hlen
    have hpre2 : (pre ++ (rest.take T.sizeof).reverse).length = (i + 1) * T.sizeof := by
      simp only [List.length_append, List.length_reverse, List.length_take, Nat.add_mul,
        Nat.one_mul]
      omega
    have hlen2 : k * T.sizeof ≤ (rest.drop T.sizeof).length := by
      simp only [List.length_drop]
      omega
    simp only [convert_endian_loop, reverse_elements]
    rw [endian_reverse_inplace_append T pre rest i hpre, ih (i + 1) _ _ hpre2 hlen2,
      List.append_assoc]

theorem convert_endian_loop_zero (T : ctype) (k : Nat) (buf : List Nat)
    (hlen : k * T.sizeof ≤ buf.length) :
    convert_endian_loop T k 0 buf = reverse_elements T.sizeof k buf := by
  have h := convert_endian_loop_eq T k 0 [] buf (by simp) hlen
  simpa using h

theorem reverse_elements_length (w k : Nat) :
    ∀ buf : List Nat, (reverse_elements w k buf).length = buf.length := by
  induction k with
  | zero => intro buf; rfl
  | succ k ih =>
    intro buf
    simp only [reverse_elements, List.length_append, List.length_reverse, List.length_take, ih,
      List.length_drop]
    omega

theorem reverse_elements_drop (w k : Nat) :
    ∀ buf : List Nat, k * w ≤ buf.length →
      (reverse_elements w k buf).drop (k * w) = buf.drop (k * w) := by
  induction k with
  | zero => intro buf _; simp [reverse_elements]
  | succ k ih =>
    intro buf hlen
    rw [Nat.add_mul, Nat.one_mul] at hlen
    have hw : (buf.take w).reverse.length = w := by
      simp only [List.length_reverse, List.length_take]
      omega
    have hlen2 : k * w ≤ (buf.drop w).length := by
      simp only [List.length_drop]
      omega
    have hkw : (k + 1) * w = w + k * w := by rw [Nat.add_mul, Nat.one_mul, Nat.add_comm]
    simp only [reverse_elements]
    rw [hkw, ← List.drop_drop, List.drop_left' hw, ih _ hlen2, List.drop_drop]

theorem reverse_elements_involutive (w k : Nat) :
    ∀ buf : List Nat, k * w ≤ buf.length →
      reverse_elements w k (reverse_elements w k buf) = buf := by
  induction k with
  | zero => intro buf _; rfl
  | succ k ih =>
    intro buf hlen
    rw [Nat.add_mul, Nat.one_mul] at hlen
    have hw : (buf.take w).reverse.length = w := by
      simp only [List.length_reverse, List.length_take]
      omega
    have hlen2 : k * w ≤ (buf.drop w).length := by
      simp only [List.length_drop]
      omega
    simp only [reverse_elements]
    rw [List.take_left' hw, List.drop_left' hw, List.reverse_reverse, ih _ hlen2,
      List.take_append_drop]

theorem reverse_elements_getElem (w k : Nat) :
    ∀ (buf : List Nat) (i j : Nat), k * w ≤ buf.length → i < k → j < w →
      (reverse_elements w k buf)[i * w + j]? = buf[i * w + (w - 1 - j)]? := by
  induction k with
  | zero => intro buf i j _ hi; omega
  | succ k ih =>
    intro buf i j hlen hi hj
    rw [Nat.add_mul, Nat.one_mul] at hlen
    have hw : (buf.take w).reverse.length = w := by
      simp only [List.length_reverse, List.length_take]
      omega
    have hwt : (buf.take w).length = w := by
      simp only [List.length_take]
      omega
    simp only [reverse_elements]
    cases i with
    | zero =>
      simp only [Nat.zero_mul, Nat.zero_add]
      rw [List.getElem?_append_left (by omega), List.getElem?_reverse (by omega), hwt,
        List.getElem?_take_of_lt (by omega)]
    | succ i =>
      have hlen2 : k * w ≤ (buf.drop w).length := by
        simp only [List.length_drop]
        omega
      have hidx : (i + 1) * w + j = w + (i * w + j) := by
        rw [Nat.add_mul, Nat.one_mul]; omega
      have hidx2 : (i + 1) * w + (w - 1 - j) = w + (i * w + (w - 1 - j)) := by
        rw [Nat.add_mul, Nat.one_mul]; omega
      rw [hidx, hidx2, List.getElem?_append_right (by omega), hw, Nat.add_sub_cancel_left,
        ih _ i j hlen2 (by omega) hj, List.getElem?_drop]

theorem convert_endian_width (P : target) (s : sample) (buf : List Nat)
    (hw : format_size_of P s.format_ ∈ [2, 4, 8])
    (hlen : s.num_channels_ * format_size_of P s.format_ ≤ buf.length) :
    convert_endian P s buf =
      outcome.returned (reverse_elements (format_size_of P s.format_) s.num_channels_ buf) := by
  simp only [List.mem_cons, List.mem_singleton, List.not_mem_nil, or_false] at hw
  unfold convert_endian
  rcases hw with h | h | h <;> rw [h] at hlen ⊢
  · simp only [ctype.int16_t, OfNat.ofNat_ne_one, if_false, if_true]
    exact congrArg _ (convert_endian_loop_zero ctype.int16_t _ _ hlen)
  · simp only [ctype.int16_t, ctype.int32_t, OfNat.ofNat_ne_one, if_false, if_true,
      Nat.reduceEqDiff]
    exact congrArg _ (convert_endian_loop_zero ctype.int32_t _ _ hlen)
  · simp only [ctype.int16_t, ctype.int32_t, ctype.int64_t, OfNat.ofNat_ne_one, if_false,
      if_true, Nat.reduceEqDiff]
    exact congrArg _ (convert_endian_loop_zero ctype.int64_t _ _ hlen)

theorem convert_endian_one (P : target) (s : sample) (buf : List Nat)
    (hw : format_size_of P s.format_ = 1) : convert_endian P s buf = outcome.returned buf := by
  simp only [convert_endian, hw, if_true]

theorem numeric_format_size (P : target) (f : lsl_channel_format_t) (hf : f ∈ numeric_formats) :
    format_size_of P f ∈ [1, 2, 4, 8] := by
  simp only [numeric_formats, List.mem_cons, List.mem_singleton, List.not_mem_nil, or_false] at hf
  rcases hf with h | h | h | h | h | h <;> subst h <;>
    simp [format_size_of, format_sizes, lsl_channel_format_t.toNat]

/-! ### C2: endian conversion is an involution -/

/-- C2: for a sample of a numeric format with `n` channels and a buffer of `n` elements of the
width of the format, `convert_endian` returns normally, and applied to its own result it returns
the original byte sequence. -/
theorem convert_endian_twice (P : target) (s : sample) (buf : List Nat)
    (hf : s.format_ ∈ numeric_formats)
    (hlen : buf.length = s.num_channels_ * format_size_of P s.format_) :
    ∃ b1, convert_endian P s buf = outcome.returned b1 ∧
      convert_endian P s b1 = outcome.returned buf := by
  have hw := numeric_format_size P s.format_ hf
  by_cases h1 : format_size_of P s.format_ = 1
  · exact ⟨buf, convert_endian_one P s buf h1, convert_endian_one P s buf h1⟩
  · have hw2 : format_size_of P s.format_ ∈ [2, 4, 8] := by
      simp only [List.mem_cons, List.mem_singleton, List.not_mem_nil, or_false] at hw ⊢
      omega
    refine ⟨reverse_elements (format_size_of P s.format_) s.num_channels_ buf,
      convert_endian_width P s buf hw2 (by omega), ?_⟩
    rw [convert_endian_width P s _ hw2 (by rw [reverse_elements_length]; omega),
      reverse_elements_involutive _ _ _ (by omega)]

/-- Witness for `convert_endian_twice`: a two channel float32 sample. -/
theorem convert_endian_twice_witness :
    convert_endian x86_64_linux (sample.sample cft_float32 2 []) [1, 2, 3, 4, 5, 6, 7, 8]
      = outcome.returned [4, 3, 2, 1, 8, 7, 6, 5] ∧
    convert_endian x86_64_linux (sample.sample cft_float32 2 []) [4, 3, 2, 1, 8, 7, 6, 5]
      = outcome.returned [1, 2, 3, 4, 5, 6, 7, 8] := by
  obtain ⟨b1, h1, h2⟩ := convert_endian_twice x86_64_linux (sample.sample cft_float32 2 [])
    [1, 2, 3, 4, 5, 6, 7, 8] (by decide) (by decide)
  have hb : b1 = [4, 3, 2, 1, 8, 7, 6, 5] := by
    have h3 : convert_endian x86_64_linux (sample.sample cft_float32 2 [])
        [1, 2, 3, 4, 5, 6, 7, 8] = outcome.returned [4, 3, 2, 1, 8, 7, 6, 5] := by decide
    rw [h1] at h3
    exact outcome.returned.inj h3
  subst hb
  exact ⟨h1, h2⟩

/-! ### C5: what endian conversion does to the bytes -/

/-- C5: for a sample with `n` channels whose format has an element width `w` of 1, 2, 4 or 8
bytes and a buffer of `n * w` bytes, `convert_endian` returns a buffer of the same length in
which byte `i * w + j` is the input byte `i * w + (w - 1 - j)` for every `i < n` and `j < w`;
for `w = 1` the buffer is unchanged; and a float32 or double64 sample is converted exactly like
an int32 or int64 sample of the same channel count. -/
theorem convert_endian_reverses_each_element (P : target) (s : sample) (buf : List Nat)
    (hw : format_size_of P s.format_ ∈ [1, 2, 4, 8])
    (hlen : buf.length = s.num_channels_ * format_size_of P s.format_) :
    ∃ out, convert_endian P s buf = outcome.returned out ∧
      out.length = buf.length ∧
      (∀ i j, i < s.num_channels_ → j < format_size_of P s.format_ →
        out[i * format_size_of P s.format_ + j]? =
          buf[i * format_size_of P s.format_ + (format_size_of P s.format_ - 1 - j)]?) ∧
      (format_size_of P s.format_ = 1 → out = buf) ∧
      convert_endian P { s with format_ := cft_float32 } buf =
        convert_endian P { s with format_ := cft_int32 } buf ∧
      convert_endian P { s with format_ := cft_double64 } buf =
        convert_endian P { s with format_ := cft_int64 } buf := by
  by_cases h1 : format_size_of P s.format_ = 1
  · refine ⟨buf, convert_endian_one P s buf h1, rfl, ?_, fun _ => rfl, rfl, rfl⟩
    intro i j _ hj
    rw [h1] at hj ⊢
    have : j = 0 := by omega
    subst this
    rfl
  · have hw2 : format_size_of P s.format_ ∈ [2, 4, 8] := by
      simp only [List.mem_cons, List.mem_singleton, List.not_mem_nil, or_false] at hw ⊢
      omega
    refine ⟨reverse_elements (format_size_of P s.format_) s.num_channels_ buf,
      convert_endian_width P s buf hw2 (by omega), reverse_elements_length _ _ _, ?_,
      fun h => absurd h h1, rfl, rfl⟩
    intro i j hi hj
    exact reverse_elements_getElem _ _ buf i j (by omega) hi hj

/-- Witness for `convert_endian_reverses_each_element`: a two channel int32 sample. -/
theorem convert_endian_reverses_each_element_witness :
    ∃ out, convert_endian x86_64_linux (sample.sample cft_int32 2 [])
        [10, 11, 12, 13, 20, 21, 22, 23] = outcome.returned out ∧
      out[1 * 4 + 0]? = some 23 ∧ out[0 * 4 + 3]? = some 10 := by
  obtain ⟨out, h1, _, h3, _⟩ :=
    convert_endian_reverses_each_element x86_64_linux (sample.sample cft_int32 2 [])
      [10, 11, 12, 13, 20, 21, 22, 23] (by decide) (by decide)
  exact ⟨out, h1, h3 1 0 (by decide) (by decide), h3 0 3 (by decide) (by decide)⟩

/-! ### C6: when endian conversion throws -/

/-- C6: on every target, `convert_endian` throws if and only if the byte size of the format in
`format_sizes` is not 1, 2, 4 or 8; it never throws for a numeric format; what it throws is
`std::runtime_error`, and the buffer is then as it was. Over the eight format tags it throws
exactly for the undefined format and, unless `sizeof(std::string)` is 1, 2, 4 or 8, for the
string format; with `sizeof(std::string)` larger than 8 these are exactly the undefined and the
string format. -/
theorem convert_endian_throws_iff (P : target) (s : sample) (buf : List Nat) :
    ((∃ e st, convert_endian P s buf = outcome.thrown e st) ↔
      format_size_of P s.format_ ∉ [1, 2, 4, 8]) ∧
    (8 < P.sizeof_string →
      ((∃ e st, convert_endian P s buf = outcome.thrown e st) ↔
        (s.format_ = cft_undefined ∨ s.format_ = cft_string))) ∧
    (s.format_ ∈ numeric_formats → ∃ out, convert_endian P s buf = outcome.returned out) ∧
    (∀ e st, convert_endian P s buf = outcome.thrown e st →
      e = exception.runtime_error "Unsupported channel format for endian conversion." ∧
        st = buf) ∧
    ((∃ e st, convert_endian P s buf = outcome.thrown e st) ↔
      (s.format_ = cft_undefined ∨
        (s.format_ = cft_string ∧ P.sizeof_string ∉ [1, 2, 4, 8]))) := by
  have hthrow : ∀ e st, convert_endian P s buf = outcome.thrown e st →
      e = exception.runtime_error "Unsupported channel format for endian conversion." ∧
        st = buf := by
    intro e st h
    unfold convert_endian at h
    split_ifs at h
    injection h with he hst
    exact ⟨he.symm, hst.symm⟩
  have hiff : (∃ e st, convert_endian P s buf = outcome.thrown e st) ↔
      format_size_of P s.format_ ∉ [1, 2, 4, 8] := by
    simp only [List.mem_cons, List.mem_singleton, List.not_mem_nil, or_false, not_or]
    constructor
    · rintro ⟨e, st, h⟩
      unfold convert_endian at h
      simp only [ctype.int16_t, ctype.int32_t, ctype.int64_t] at h
      split_ifs at h
      exact ⟨by assumption, by assumption, by assumption, by assumption⟩
    · rintro ⟨a, b, c, d⟩
      refine ⟨exception.runtime_error "Unsupported channel format for endian conversion.",
        buf, ?_⟩
      simp only [convert_endian, ctype.int16_t, ctype.int32_t, ctype.int64_t, a, b, c, d,
        if_false]
  have hgen : format_size_of P s.format_ ∉ [1, 2, 4, 8] ↔
      (s.format_ = cft_undefined ∨
        (s.format_ = cft_string ∧ P.sizeof_string ∉ [1, 2, 4, 8])) := by
    rw [format_size_of_cases]
    cases s.format_ <;> simp
  have hsize : 8 < P.sizeof_string → (format_size_of P s.format_ ∉ [1, 2, 4, 8] ↔
      (s.format_ = cft_undefined ∨ s.format_ = cft_string)) := by
    intro h8
    rw [hgen]
    have hno : P.sizeof_string ∉ [1, 2, 4, 8] := by
      simp only [List.mem_cons, List.mem_singleton, List.not_mem_nil, or_false]
      omega
    simp only [hno, not_false_eq_true, and_true]
  refine ⟨hiff, fun h8 => hiff.trans (hsize h8), ?_, hthrow, hiff.trans hgen⟩
  intro hf
  have hw := numeric_format_size P s.format_ hf
  cases hc : convert_endian P s buf with
  | returned out => exact ⟨out, rfl⟩
  | thrown e st => exact absurd hw (hiff.mp ⟨e, st, hc⟩)

/-- Witness for `convert_endian_throws_iff`: a string sample on a target with a 32 byte
`std::string` throws and leaves the buffer as it was; on a target with an 8 byte `std::string`
the string format takes the case of 8 byte elements and returns. -/
theorem convert_endian_throws_iff_witness :
    convert_endian x86_64_linux (sample.sample cft_string 2 []) [1, 2, 3, 4]
      = outcome.thrown
          (exception.runtime_error "Unsupported channel format for endian conversion.")
          [1, 2, 3, 4] ∧
    ¬ (∃ e st, convert_endian ⟨byteorder.little, 8, by decide⟩ (sample.sample cft_string 1 [])
      [1, 2, 3, 4, 5, 6, 7, 8] = outcome.thrown e st) := by
  have h := convert_endian_throws_iff x86_64_linux (sample.sample cft_string 2 []) [1, 2, 3, 4]
  have h2 := convert_endian_throws_iff ⟨byteorder.little, 8, by decide⟩
    (sample.sample cft_string 1 []) [1, 2, 3, 4, 5, 6, 7, 8]
  refine ⟨?_, ?_⟩
  · obtain ⟨e, st, hc⟩ := (h.2.1 (by decide)).mpr (Or.inr rfl)
    obtain ⟨he, hst⟩ := h.2.2.2.1 e st hc
    subst he hst
    exact hc
  · intro hthrows
    exact absurd (h2.1.mp hthrows) (by decide)

/-! ### C10: when typed access throws -/

/-- C10: for every type `T`, `assign_typed<T>` and `retrieve_typed<T>` throw if and only if the
format of the sample is not one of the formats that have a case in the switch (float32,
double64, int8, int16, int32, int64, string); what they throw is `std::invalid_argument`; a
throwing `assign_typed<T>` leaves the sample, its payload included, as it was, and a throwing
`retrieve_typed<T>` leaves the sample and the destination as they were. -/
theorem typed_access_throws_iff_not_in_switch (C : conversions) (P : target) (T : ctype)
    (s : sample) (src d : List Nat) :
    ((∃ e st, assign_typed C P T src s = outcome.thrown e st) ↔ s.format_ ∉ switch_formats) ∧
    ((∃ e st, retrieve_typed C P T d s = outcome.thrown e st) ↔ s.format_ ∉ switch_formats) ∧
    (∀ e st, assign_typed C P T src s = outcome.thrown e st →
      e = exception.invalid_argument "Unsupported channel format." ∧ st = s ∧
        st.data_ = s.data_) ∧
    (∀ e st, retrieve_typed C P T d s = outcome.thrown e st →
      e = exception.invalid_argument "Unsupported channel format." ∧ st = (s, d)) := by
  have hsw : s.format_ ∉ switch_formats ↔ s.format_ = cft_undefined := by
    cases s.format_ <;> simp [switch_formats]
  have hA : ∀ e st, assign_typed C P T src s = outcome.thrown e st →
      s.format_ = cft_undefined ∧ e = exception.invalid_argument "Unsupported channel format." ∧
        st = s := by
    intro e st h
    unfold assign_typed at h
    split at h
    · exact outcome.noConfusion h
    · split at h <;> first
        | exact outcome.noConfusion h
        | (injection h with he hst
           refine ⟨?_, he.symm, hst.symm⟩
           cases hfm : s.format_ <;> simp_all)
  have hR : ∀ e st, retrieve_typed C P T d s = outcome.thrown e st →
      s.format_ = cft_undefined ∧ e = exception.invalid_argument "Unsupported channel format." ∧
        st = (s, d) := by
    intro e st h
    unfold retrieve_typed at h
    split at h
    · exact outcome.noConfusion h
    · split at h <;> first
        | exact outcome.noConfusion h
        | (injection h with he hst
           refine ⟨?_, he.symm, hst.symm⟩
           cases hfm : s.format_ <;> simp_all)
  refine ⟨?_, ?_, ?_, ?_⟩
  · rw [hsw]
    constructor
    · rintro ⟨e, st, h⟩
      exact (hA e st h).1
    · intro h
      refine ⟨exception.invalid_argument "Unsupported channel format.", s, ?_⟩
      simp only [assign_typed, h, raw_copy_undefined]
      rfl
  · rw [hsw]
    constructor
    · rintro ⟨e, st, h⟩
      exact (hR e st h).1
    · intro h
      refine ⟨exception.invalid_argument "Unsupported channel format.", (s, d), ?_⟩
      simp only [retrieve_typed, h, raw_copy_undefined]
      rfl
  · intro e st h
    obtain ⟨_, he, hst⟩ := hA e st h
    exact ⟨he, hst, by rw [hst]⟩
  · intro e st h
    obtain ⟨_, he, hst⟩ := hR e st h
    exact ⟨he, hst⟩

/-! ### C9: the reference count -/

theorem apply_ops_append (s : sample) (pre post : List refop) :
    apply_ops s (pre ++ post) = apply_ops (apply_ops s pre) post := by
  induction pre generalizing s with
  | nil => rfl
  | cons op pre ih => exact ih _

theorem reclaim_calls_append (s : sample) (pre post : List refop) :
    reclaim_calls s (pre ++ post) = reclaim_calls s pre + reclaim_calls (apply_ops s pre) post := by
  induction pre generalizing s with
  | nil => simp [reclaim_calls, apply_ops]
  | cons op pre ih =>
    rw [List.cons_append]
    simp only [reclaim_calls, apply_ops]
    rw [ih]
    omega

theorem release_guarded_append (s : sample) (pre post : List refop) :
    release_guarded s (pre ++ post) ↔
      release_guarded s pre ∧ release_guarded (apply_ops s pre) post := by
  induction pre generalizing s with
  | nil => simp [release_guarded, apply_ops]
  | cons op pre ih =>
    rw [List.cons_append]
    simp only [release_guarded, apply_ops]
    rw [ih, and_assoc]

theorem int_wrap_of_range (z : Int) (hlo : -2147483648 ≤ z) (hhi : z < 2147483648) :
    int_wrap z = z := by
  unfold int_wrap
  omega

theorem int_wrap_add (a b : Int) : int_wrap (int_wrap a + b) = int_wrap (a + b) := by
  unfold int_wrap
  omega

theorem apply_ops_refcount (s : sample) (ops : List refop) (h0 : 0 ≤ s.refcount_)
    (hg : release_guarded s ops)
    (hb : ∀ pre post, ops = pre ++ post →
      s.refcount_ + (pre.count refop.add_ref : Int) - (pre.count refop.release : Int)
        < 2 ^ 31) :
    (apply_ops s ops).refcount_ =
      s.refcount_ + (ops.count refop.add_ref : Int) - (ops.count refop.release : Int) ∧
    0 ≤ (apply_ops s ops).refcount_ := by
  induction ops generalizing s with
  | nil => simp [apply_ops, h0]
  | cons op ops ih =>
    obtain ⟨h1, h2⟩ := hg
    have hnil := hb [] (op :: ops) rfl
    simp only [List.count_nil, Nat.cast_zero] at hnil
    cases op
    · have hone := hb [refop.add_ref] ops rfl
      rw [List.count_cons_self, List.count_cons_of_ne (by decide)] at hone
      simp only [List.count_nil, Nat.cast_zero, Nat.zero_add, Nat.cast_one] at hone
      have hrc : (refstep s refop.add_ref).1.refcount_ = s.refcount_ + 1 := by
        simp only [refstep, intrusive_ptr_add_ref]
        exact int_wrap_of_range _ (by omega) (by omega)
      have hb2 : ∀ pre post, ops = pre ++ post →
          (refstep s refop.add_ref).1.refcount_ + (pre.count refop.add_ref : Int) -
            (pre.count refop.release : Int) < 2 ^ 31 := by
        intro pre post hops
        have h := hb (refop.add_ref :: pre) post (by rw [hops]; rfl)
        rw [List.count_cons_self, List.count_cons_of_ne (by decide)] at h
        push_cast at h
        rw [hrc]
        omega
      obtain ⟨ih1, ih2⟩ := ih (refstep s refop.add_ref).1 (by rw [hrc]; omega) h2 hb2
      rw [List.count_cons_self, List.count_cons_of_ne (by decide)]
      simp only [apply_ops]
      refine ⟨?_, ih2⟩
      rw [ih1, hrc]
      push_cast
      omega
    · have hne := h1 rfl
      have hrc : (refstep s refop.release).1.refcount_ = s.refcount_ - 1 := by
        simp only [refstep, intrusive_ptr_release]
        exact int_wrap_of_range _ (by omega) (by omega)
      have hb2 : ∀ pre post, ops = pre ++ post →
          (refstep s refop.release).1.refcount_ + (pre.count refop.add_ref : Int) -
            (pre.count refop.release : Int) < 2 ^ 31 := by
        intro pre post hops
        have h := hb (refop.release :: pre) post (by rw [hops]; rfl)
        rw [List.count_cons_self, List.count_cons_of_ne (by decide)] at h
        push_cast at h
        rw [hrc]
        omega
      obtain ⟨ih1, ih2⟩ := ih (refstep s refop.release).1 (by rw [hrc]; omega) h2 hb2
      rw [List.count_cons_self, List.count_cons_of_ne (by decide)]
      simp only [apply_ops]
      refine ⟨?_, ih2⟩
      rw [ih1, hrc]
      push_cast
      omega

theorem release_reclaims_iff (s : sample) :
    (intrusive_ptr_release s).2 = true ↔ s.refcount_ = 1 := by
  simp only [intrusive_ptr_release, decide_eq_true_eq]

theorem reclaim_calls_snoc (s : sample) (pre : List refop) (op : refop) :
    reclaim_calls s (pre ++ [op]) =
      reclaim_calls s pre + (if (refstep (apply_ops s pre) op).2 then 1 else 0) := by
  rw [reclaim_calls_append]
  simp [reclaim_calls]

theorem count_snoc_release (pre : List refop) :
    (pre ++ [refop.release]).count refop.release = pre.count refop.release + 1 ∧
    (pre ++ [refop.release]).count refop.add_ref = pre.count refop.add_ref := by
  simp only [List.count_append, List.count_singleton, beq_self_eq_true, if_true]
  refine ⟨trivial, ?_⟩
  rw [if_neg (by decide)]
  rfl

theorem reclaim_calls_eq_zero (s : sample) (ops : List refop)
    (hrc : ∀ pre post, ops = pre ++ post → (apply_ops s pre).refcount_ =
      (pre.count refop.add_ref : Int) - (pre.count refop.release : Int))
    (hne : ∀ pre post, ops = pre ++ post → pre ≠ [] →
      pre.count refop.release ≠ pre.count refop.add_ref) :
    reclaim_calls s ops = 0 := by
  induction ops using List.reverseRecOn with
  | nil => rfl
  | append_singleton pre op ih =>
    have ihz : reclaim_calls s pre = 0 := by
      apply ih
      · intro q r hqr
        exact hrc q (r ++ [op]) (by rw [hqr, List.append_assoc])
      · intro q r hqr hq
        exact hne q (r ++ [op]) (by rw [hqr, List.append_assoc]) hq
    rw [reclaim_calls_snoc, ihz]
    cases op
    · simp [refstep]
    · have hcnt := hne (pre ++ [refop.release]) [] (by simp) (by simp)
      have hpre := hrc pre [refop.release] rfl
      obtain ⟨hc1, hc2⟩ := count_snoc_release pre
      rw [hc1, hc2] at hcnt
      have hflag : (refstep (apply_ops s pre) refop.release).2 = false := by
        cases hb : (refstep (apply_ops s pre) refop.release).2
        · rfl
        · exfalso
          have hz := (release_reclaims_iff (apply_ops s pre)).mp hb
          rw [hz] at hpre
          omega
      simp [hflag]

theorem balance_lt_of_length (ops : List refop) (hlen : ops.length < 2147483648) :
    ∀ pre post, ops = pre ++ post →
      (pre.count refop.add_ref : Int) - (pre.count refop.release : Int) < 2 ^ 31 := by
  intro pre post hops
  have h1 : pre.count refop.add_ref ≤ pre.length := List.count_le_length _ _
  have h2 : pre.length ≤ ops.length := by
    rw [hops, List.length_append]
    omega
  omega

theorem apply_ops_replicate_add_ref (k : Nat) :
    ∀ s : sample, int_wrap s.refcount_ = s.refcount_ →
      (apply_ops s (List.replicate k refop.add_ref)).refcount_ =
        int_wrap (s.refcount_ + (k : Int)) := by
  induction k with
  | zero =>
    intro s hs
    simp only [List.replicate_zero, apply_ops, Nat.cast_zero, Int.add_zero, hs]
  | succ k ih =>
    intro s _
    rw [List.replicate_succ]
    simp only [apply_ops]
    rw [ih _ (by simp only [refstep, intrusive_ptr_add_ref]; unfold int_wrap; omega)]
    simp only [refstep, intrusive_ptr_add_ref]
    rw [int_wrap_add]
    push_cast
    congr 1
    omega

theorem release_guarded_replicate_add_ref (k : Nat) :
    ∀ s : sample, release_guarded s (List.replicate k refop.add_ref) := by
  induction k with
  | zero => intro s; exact trivial
  | succ k ih =>
    intro s
    rw [List.replicate_succ]
    exact ⟨fun h => absurd h (by decide), ih _⟩

theorem count_replicate_add_ref (k : Nat) :
    (List.replicate k refop.add_ref ++ [refop.release]).count refop.release = 1 ∧
    (List.replicate k refop.add_ref ++ [refop.release]).count refop.add_ref = k := by
  obtain ⟨h1, h2⟩ := count_snoc_release (List.replicate k refop.add_ref)
  rw [h1, h2, List.count_replicate_self, List.count_replicate]
  exact ⟨by rw [if_neg (by decide)], rfl⟩

theorem wrapped_release_reclaims (k : Nat) (s : sample) (h0 : s.refcount_ = 0)
    (hk : int_wrap (k : Int) = 1) :
    release_guarded s (List.replicate k refop.add_ref ++ [refop.release]) ∧
    (intrusive_ptr_release (apply_ops s (List.replicate k refop.add_ref))).2 = true := by
  have hrc : (apply_ops s (List.replicate k refop.add_ref)).refcount_ = 1 := by
    rw [apply_ops_replicate_add_ref k s (by rw [h0]; rfl), h0, Int.zero_add, hk]
  refine ⟨?_, (release_reclaims_iff _).mpr hrc⟩
  rw [release_guarded_append]
  refine ⟨release_guarded_replicate_add_ref k s, ?_, trivial⟩
  intro _
  rw [hrc]
  decide

/-- C9, as the code has it: the reference count is the 32 bit `int` of `std::atomic<int>`, set
to 0 by the constructor, `add_ref` adding 1 and `release` subtracting 1, both wrapping, and
`release` reclaiming when the value before was 1. In every sequence of operations in which no
`release` is applied at a count of 0 and in which after every step the add_refs exceed the
releases by less than `2 ^ 31`, a `release` step reclaims the sample if and only if after that
step as many releases as add_refs have been made, and the count is never negative; and such a
sequence that ends the first time the two numbers are equal reclaims the sample exactly once,
at its last step. -/
theorem refcount_reclaims_when_counts_meet (s : sample) (ops : List refop)
    (h0 : s.refcount_ = 0) (hg : release_guarded s ops)
    (hb : ∀ pre post, ops = pre ++ post →
      (pre.count refop.add_ref : Int) - (pre.count refop.release : Int) < 2 ^ 31) :
    (∀ fmt n mem, (sample.sample fmt n mem).refcount_ = 0) ∧
    (∀ pre post, ops = pre ++ refop.release :: post →
      ((intrusive_ptr_release (apply_ops s pre)).2 = true ↔
        (pre ++ [refop.release]).count refop.release =
          (pre ++ [refop.release]).count refop.add_ref)) ∧
    (∀ pre post, ops = pre ++ post → 0 ≤ (apply_ops s pre).refcount_) ∧
    (∀ pre post, ops = pre ++ post → (apply_ops s pre).refcount_ =
      (pre.count refop.add_ref : Int) - (pre.count refop.release : Int)) ∧
    (ops ≠ [] → ops.count refop.release = ops.count refop.add_ref →
      (∀ pre post, ops = pre ++ post → pre ≠ [] → post ≠ [] →
        pre.count refop.release ≠ pre.count refop.add_ref) →
      reclaim_calls s ops = 1 ∧
      ∃ pre, ops = pre ++ [refop.release] ∧ reclaim_calls s pre = 0 ∧
        (intrusive_ptr_release (apply_ops s pre)).2 = true) := by
  have hpre : ∀ pre post, ops = pre ++ post →
      (apply_ops s pre).refcount_ =
        (pre.count refop.add_ref : Int) - (pre.count refop.release : Int) ∧
      0 ≤ (apply_ops s pre).refcount_ := by
    intro pre post hops
    have hgp : release_guarded s pre := by
      rw [hops, release_guarded_append] at hg
      exact hg.1
    have hbp : ∀ q r, pre = q ++ r →
        s.refcount_ + (q.count refop.add_ref : Int) - (q.count refop.release : Int)
          < 2 ^ 31 := by
      intro q r hqr
      have h := hb q (r ++ post) (by rw [hops, hqr, List.append_assoc])
      rw [h0]
      omega
    have h := apply_ops_refcount s pre (by omega) hgp hbp
    rw [h0, Int.zero_add] at h
    exact h
  have hstep : ∀ pre post, ops = pre ++ refop.release :: post →
      ((intrusive_ptr_release (apply_ops s pre)).2 = true ↔
        (pre ++ [refop.release]).count refop.release =
          (pre ++ [refop.release]).count refop.add_ref) := by
    intro pre post hops
    obtain ⟨hc1, hc2⟩ := count_snoc_release pre
    have h1 := (hpre pre (refop.release :: post) hops).1
    rw [release_reclaims_iff, hc1, hc2, h1]
    omega
  refine ⟨fun _ _ _ => rfl, hstep, fun pre post h => (hpre pre post h).2,
    fun pre post h => (hpre pre post h).1, ?_⟩
  intro hne heq hfirst
  rcases List.eq_nil_or_concat ops with hnil | ⟨pre, op, hops⟩
  · exact absurd hnil hne
  · rw [List.concat_eq_append] at hops
    have hop : op = refop.release := by
      cases op
      · exfalso
        obtain ⟨hrc, hnn⟩ := hpre pre [refop.add_ref] hops
        rw [hops] at heq
        simp only [List.count_append, List.count_singleton] at heq
        simp only [reduceCtorEq, if_false, if_true, beq_iff_eq] at heq
        omega
      · rfl
    subst hop
    have hzero : reclaim_calls s pre = 0 := by
      apply reclaim_calls_eq_zero s pre
      · intro q r hqr
        exact (hpre q (r ++ [refop.release]) (by rw [hops, hqr, List.append_assoc])).1
      · intro q r hqr hq
        exact hfirst q (r ++ [refop.release]) (by rw [hops, hqr, List.append_assoc]) hq
          (by simp)
    have hflag : (intrusive_ptr_release (apply_ops s pre)).2 = true := by
      rw [hstep pre [] hops, ← hops]
      exact heq
    refine ⟨?_, pre, hops, hzero, hflag⟩
    rw [hops, reclaim_calls_snoc, hzero]
    simp only [refstep, hflag, if_true]

/-- Witness for `refcount_reclaims_when_counts_meet`: two references taken and dropped on a
freshly constructed sample. -/
theorem refcount_reclaims_when_counts_meet_witness :
    reclaim_calls (sample.sample cft_float32 1 [0, 0, 0, 0])
      [refop.add_ref, refop.add_ref, refop.release, refop.release] = 1 ∧
    (intrusive_ptr_release (apply_ops (sample.sample cft_float32 1 [0, 0, 0, 0])
      [refop.add_ref, refop.add_ref, refop.release])).2 = true ∧
    (intrusive_ptr_release (apply_ops (sample.sample cft_float32 1 [0, 0, 0, 0])
      [refop.add_ref, refop.add_ref])).2 = false := by
  have h := refcount_reclaims_when_counts_meet (sample.sample cft_float32 1 [0, 0, 0, 0])
    [refop.add_ref, refop.add_ref, refop.release, refop.release] rfl (by decide)
    (balance_lt_of_length _ (by decide))
  refine ⟨by decide, ?_, ?_⟩
  · exact (h.2.1 [refop.add_ref, refop.add_ref, refop.release] [] rfl).mpr (by decide)
  · have h2 := h.2.1 [refop.add_ref, refop.add_ref] [refop.release] rfl
    cases hb : (intrusive_ptr_release (apply_ops (sample.sample cft_float32 1 [0, 0, 0, 0])
      [refop.add_ref, refop.add_ref])).2
    · rfl
    · exact absurd (h2.mp hb) (by decide)

/-- C9, as stated, fails: on a freshly constructed sample, after `2 ^ 32 + 1` add_refs the 32
bit count holds 1, so that a `release`, which is not applied at a count of 0, reclaims the
sample although one release and `2 ^ 32 + 1` add_refs have been made; and after `2 ^ 31`
add_refs the count is negative. -/
theorem refcount_wraps_around :
    release_guarded (sample.sample cft_float32 1 [0, 0, 0, 0])
      (List.replicate 4294967297 refop.add_ref ++ [refop.release]) ∧
    ¬ ((intrusive_ptr_release (apply_ops (sample.sample cft_float32 1 [0, 0, 0, 0])
        (List.replicate 4294967297 refop.add_ref))).2 = true ↔
      (List.replicate 4294967297 refop.add_ref ++ [refop.release]).count refop.release =
        (List.replicate 4294967297 refop.add_ref ++ [refop.release]).count refop.add_ref) ∧
    (apply_ops (sample.sample cft_float32 1 [0, 0, 0, 0])
      (List.replicate 2147483648 refop.add_ref)).refcount_ < 0 := by
  have hk : int_wrap ((4294967297 : Nat) : Int) = 1 := by
    unfold int_wrap
    omega
  obtain ⟨hg, hflag⟩ :=
    wrapped_release_reclaims 4294967297 (sample.sample cft_float32 1 [0, 0, 0, 0]) rfl hk
  obtain ⟨hc1, hc2⟩ := count_replicate_add_ref 4294967297
  refine ⟨hg, ?_, ?_⟩
  · intro hiff
    have h := hiff.mp hflag
    rw [hc1, hc2] at h
    exact absurd h (by decide)
  · rw [apply_ops_replicate_add_ref 2147483648 (sample.sample cft_float32 1 [0, 0, 0, 0]) rfl]
    have h0 : (sample.sample cft_float32 1 [0, 0, 0, 0]).refcount_ = 0 := rfl
    rw [h0]
    unfold int_wrap
    omega

/-! ### C11: typed access on every format tag -/

/-- C11, as the code has it: for every type `T`, `assign_typed<T>` and `retrieve_typed<T>`
return normally if and only if the format of the sample is not undefined; on a sample of the
undefined format, a valid value of the enumeration, both reach the default label and throw
`std::invalid_argument`, leaving the sample and the destination as they were. -/
theorem typed_access_returns_iff_defined (C : conversions) (P : target) (T : ctype)
    (s : sample) (src d : List Nat) :
    ((∃ st, assign_typed C P T src s = outcome.returned st) ↔ s.format_ ≠ cft_undefined) ∧
    ((∃ r, retrieve_typed C P T d s = outcome.returned r) ↔ s.format_ ≠ cft_undefined) ∧
    (s.format_ = cft_undefined →
      assign_typed C P T src s =
        outcome.thrown (exception.invalid_argument "Unsupported channel format.") s ∧
      retrieve_typed C P T d s =
        outcome.thrown (exception.invalid_argument "Unsupported channel format.") (s, d)) := by
  have hu := raw_copy_undefined P T
  refine ⟨?_, ?_, ?_⟩
  · cases hf : s.format_ <;> by_cases hr : raw_copy P T s.format_ = true <;>
      simp_all [assign_typed]
  · cases hf : s.format_ <;> by_cases hr : raw_copy P T s.format_ = true <;>
      simp_all [retrieve_typed]
  · intro hf
    simp only [assign_typed, retrieve_typed, hf, hu]
    exact ⟨rfl, rfl⟩

/-- C11, as stated, fails: on a one channel sample of the undefined format, `assign_typed` and
`retrieve_typed` with `T = int32_t` throw the unsupported format error. -/
theorem typed_access_throws_on_undefined :
    assign_typed no_conversions x86_64_linux ctype.int32_t [1, 0, 0, 0]
        (sample.sample cft_undefined 1 []) =
      outcome.thrown (exception.invalid_argument "Unsupported channel format.")
        (sample.sample cft_undefined 1 []) ∧
    retrieve_typed no_conversions x86_64_linux ctype.int32_t [7, 7, 7, 7]
        (sample.sample cft_undefined 1 []) =
      outcome.thrown (exception.invalid_argument "Unsupported channel format.")
        (sample.sample cft_undefined 1 [], [7, 7, 7, 7]) := by
  exact ⟨rfl, rfl⟩

/-! ### C12, C13 and C18: the tables and the byte order constant -/

theorem toNat_lt_eight (f : lsl_channel_format_t) : f.toNat < 8 := by
  cases f <;> decide

/-- C12: each of the five format tables has exactly eight entries, so the lookup of the byte
size and of each classification flag at an index below 8, and in particular at the index of
every format tag, is in bounds and yields a value. -/
theorem format_tables_have_eight_entries (P : target) (a b c d : Bool) :
    (format_sizes P).length = 8 ∧ (format_ieee754 a b).length = 8 ∧
    (format_subnormal c d).length = 8 ∧ format_integral.length = 8 ∧ format_float.length = 8 ∧
    (∀ i, i < 8 →
      (format_sizes P)[i]? ≠ none ∧ (format_ieee754 a b)[i]? ≠ none ∧
      (format_subnormal c d)[i]? ≠ none ∧ format_integral[i]? ≠ none ∧
      format_float[i]? ≠ none) ∧
    (∀ f : lsl_channel_format_t, f.toNat < 8 ∧
      (format_sizes P)[f.toNat]? = some (format_size_of P f) ∧
      (format_ieee754 a b)[f.toNat]? ≠ none ∧ (format_subnormal c d)[f.toNat]? ≠ none ∧
      format_integral[f.toNat]? = some (format_integral_of f) ∧
      format_float[f.toNat]? = some (format_float_of f)) := by
  have hlen : (format_sizes P).length = 8 ∧ (format_ieee754 a b).length = 8 ∧
      (format_subnormal c d).length = 8 ∧ format_integral.length = 8 ∧
      format_float.length = 8 := ⟨rfl, rfl, rfl, rfl, rfl⟩
  have hin : ∀ i, i < 8 →
      (format_sizes P)[i]? ≠ none ∧ (format_ieee754 a b)[i]? ≠ none ∧
      (format_subnormal c d)[i]? ≠ none ∧ format_integral[i]? ≠ none ∧
      format_float[i]? ≠ none := by
    intro i hi
    obtain ⟨h1, h2, h3, h4, h5⟩ := hlen
    simp only [ne_eq, List.getElem?_eq_none_iff, not_le, h1, h2, h3, h4, h5]
    exact ⟨hi, hi, hi, hi, hi⟩
  refine ⟨hlen.1, hlen.2.1, hlen.2.2.1, hlen.2.2.2.1, hlen.2.2.2.2, hin, ?_⟩
  intro f
  have h := hin f.toNat (toNat_lt_eight f)
  refine ⟨toNat_lt_eight f, ?_, h.2.1, h.2.2.1, ?_, ?_⟩ <;> cases f <;> rfl

/-- C13: `LSL_BYTE_ORDER` is 1234 when the native byte order is little endian and 4321 when it
is big endian; the native order being one of the two, it takes no other value. -/
theorem LSL_BYTE_ORDER_values (P : target) :
    (P.native = byteorder.little → LSL_BYTE_ORDER P = 1234) ∧
    (P.native = byteorder.big → LSL_BYTE_ORDER P = 4321) ∧
    (P.native = byteorder.little ∨ P.native = byteorder.big) ∧
    (LSL_BYTE_ORDER P = 1234 ∨ LSL_BYTE_ORDER P = 4321) ∧
    (LSL_BYTE_ORDER P = 1234 ↔ P.native = byteorder.little) ∧
    (LSL_BYTE_ORDER P = 4321 ↔ P.native = byteorder.big) := by
  unfold LSL_BYTE_ORDER
  cases P.native <;> simp

/-- C18: over the eight format tags no format is both integral and floating; the integral
formats are exactly int32, int16, int8 and int64 and the floating formats exactly float32 and
double64, so that undefined and string are neither; a format flagged IEEE754 or capable of
subnormals is floating, whatever the target says of float and double; and every integral or
floating format has a byte size of 1, 2, 4 or 8. -/
theorem format_tables_consistent (P : target) (a b c d : Bool) (f : lsl_channel_format_t) :
    ¬ (format_integral_of f = true ∧ format_float_of f = true) ∧
    (format_integral_of f = true ↔ f ∈ [cft_int32, cft_int16, cft_int8, cft_int64]) ∧
    (format_float_of f = true ↔ f ∈ [cft_float32, cft_double64]) ∧
    (f = cft_undefined ∨ f = cft_string →
      format_integral_of f = false ∧ format_float_of f = false) ∧
    ((format_ieee754 a b).getD f.toNat false = true → format_float_of f = true) ∧
    ((format_subnormal c d).getD f.toNat false = true → format_float_of f = true) ∧
    (format_integral_of f = true ∨ format_float_of f = true →
      format_size_of P f ∈ [1, 2, 4, 8]) := by
  cases f <;>
    simp [format_integral_of, format_float_of, format_size_of, format_integral, format_float,
      format_sizes, format_ieee754, format_subnormal, lsl_channel_format_t.toNat]

/-! ### C14: what the accessors leave alone -/

/-- C14: whether they return or throw, `assign_typed` and `assign_untyped` leave a sample that
differs from the one before at most in its payload; `retrieve_typed` and `retrieve_untyped`
leave the sample exactly as it was, payload included; `convert_endian`, a const member, yields
only a buffer, of the length of the one it was given and with the same bytes past the elements
of the sample. Format and channel count are therefore as the constructor set them. -/
theorem accessors_frame (C : conversions) (P : target) (T : ctype) (s : sample)
    (src d buf : List Nat) :
    same_but_payload (assign_typed C P T src s).state s ∧
    same_but_payload (assign_untyped P src s).state s ∧
    (retrieve_typed C P T d s).state.1 = s ∧
    (retrieve_untyped P d s).state.1 = s ∧
    (s.num_channels_ * format_size_of P s.format_ ≤ buf.length →
      (convert_endian P s buf).state.length = buf.length ∧
      (convert_endian P s buf).state.drop (s.num_channels_ * format_size_of P s.format_) =
        buf.drop (s.num_channels_ * format_size_of P s.format_)) ∧
    (assign_typed C P T src s).state.format_ = s.format_ ∧
    (assign_typed C P T src s).state.num_channels_ = s.num_channels_ ∧
    (assign_untyped P src s).state.format_ = s.format_ ∧
    (assign_untyped P src s).state.num_channels_ = s.num_channels_ ∧
    (∀ fmt n mem, (sample.sample fmt n mem).format_ = fmt ∧
      (sample.sample fmt n mem).num_channels_ = n) := by
  have hat : same_but_payload (assign_typed C P T src s).state s := by
    unfold assign_typed
    split
    · exact ⟨rfl, rfl, rfl, rfl, rfl⟩
    · split <;> exact ⟨rfl, rfl, rfl, rfl, rfl⟩
  have hau : same_but_payload (assign_untyped P src s).state s := by
    unfold assign_untyped
    split <;> exact ⟨rfl, rfl, rfl, rfl, rfl⟩
  have hrt : (retrieve_typed C P T d s).state.1 = s := by
    unfold retrieve_typed
    split
    · rfl
    · split <;> rfl
  have hru : (retrieve_untyped P d s).state.1 = s := by
    unfold retrieve_untyped
    split <;> rfl
  refine ⟨hat, hau, hrt, hru, ?_, ?_, ?_, ?_, ?_, fun _ _ _ => ⟨rfl, rfl⟩⟩
  · intro hlen
    by_cases hw : format_size_of P s.format_ ∈ [2, 4, 8]
    · rw [convert_endian_width P s buf hw hlen]
      exact ⟨reverse_elements_length _ _ _, reverse_elements_drop _ _ _ hlen⟩
    · have hst : (convert_endian P s buf).state = buf := by
        simp only [List.mem_cons, List.mem_singleton, List.not_mem_nil, or_false, not_or] at hw
        obtain ⟨h2, h4, h8⟩ := hw
        unfold convert_endian
        simp only [ctype.int16_t, ctype.int32_t, ctype.int64_t, h2, h4, h8, if_false]
        split <;> rfl
      rw [hst]
      exact ⟨rfl, rfl⟩
  · exact hat.2.2.1
  · exact hat.2.2.2.1
  · exact hau.2.2.1
  · exact hau.2.2.2.1

/-! ### C16 and C19: rounding up to a multiple -/

theorem round_up_eq (v base : Nat) :
    v - v % base + base = base * (v / base + 1) := by
  have h := Nat.div_add_mod v base
  have hle := Nat.mod_le v base
  rw [Nat.mul_add, Nat.mul_one]
  omega

theorem round_up_bounds (v base : Nat) (hb : 0 < base) (hr : v % base ≠ 0) :
    v < v - v % base + base ∧ v - v % base + base < v + base ∧
    (v - v % base + base) % base = 0 := by
  have hlt := Nat.mod_lt v hb
  have hle := Nat.mod_le v base
  refine ⟨by omega, by omega, ?_⟩
  rw [round_up_eq]
  exact Nat.mul_mod_right _ _

theorem round_up_least (v base m : Nat) (hr : v % base ≠ 0)
    (hm : m % base = 0) (hvm : v ≤ m) : v - v % base + base ≤ m := by
  have hmeq : base * (m / base) = m := by
    have h := Nat.div_add_mod m base
    omega
  have hveq := Nat.div_add_mod v base
  have hq : v / base < m / base := by
    by_contra hcon
    have hle : m / base ≤ v / base := by omega
    have hmul : base * (m / base) ≤ base * (v / base) := Nat.mul_le_mul_left _ hle
    omega
  have hmul : base * (v / base + 1) ≤ base * (m / base) := Nat.mul_le_mul_left _ hq
  rw [round_up_eq]
  omega

/-- C16: for `base > 0` and `v + base - 1 < 2 ^ 32`, `ensure_multiple(v, base)` is the least
multiple of `base` that is at least `v`: it is a multiple of `base`, lies in `[v, v + base)`,
is below every multiple of `base` that is at least `v`, and equals `v` exactly when `v` is a
multiple of `base`. -/
theorem ensure_multiple_is_least_multiple (v base : Nat) (hb : 0 < base)
    (hfit : v + base - 1 < 2 ^ 32) :
    factory.ensure_multiple v base % base = 0 ∧
    v ≤ factory.ensure_multiple v base ∧
    factory.ensure_multiple v base < v + base ∧
    (factory.ensure_multiple v base = v ↔ v % base = 0) ∧
    (∀ m, m % base = 0 → v ≤ m → factory.ensure_multiple v base ≤ m) := by
  by_cases hr : v % base = 0
  · have he : factory.ensure_multiple v base = v := by
      simp only [factory.ensure_multiple, hr, ne_eq, not_true_eq_false, if_false]
    rw [he]
    exact ⟨hr, Nat.le_refl _, by omega, by simp [hr], fun m _ hvm => hvm⟩
  · obtain ⟨h1, h2, h3⟩ := round_up_bounds v base hb hr
    have he : factory.ensure_multiple v base = v - v % base + base := by
      simp only [factory.ensure_multiple, hr, ne_eq, not_false_eq_true, if_true]
      exact Nat.mod_eq_of_lt (by omega)
    rw [he]
    refine ⟨h3, by omega, h2, ?_, fun m hm hvm => round_up_least v base m hr hm hvm⟩
    constructor
    · intro h; omega
    · intro h; exact absurd h hr

/-- Witness for `ensure_multiple_is_least_multiple`: 13 rounded up to a multiple of 8. -/
theorem ensure_multiple_is_least_multiple_witness :
    factory.ensure_multiple 13 8 = 16 ∧ factory.ensure_multiple 13 8 % 8 = 0 := by
  have h := ensure_multiple_is_least_multiple 13 8 (by decide) (by decide)
  exact ⟨by decide, h.1⟩

/-- C19: in 32 bit unsigned arithmetic, for `base > 0`, `ensure_multiple(v, base)` is smaller
than `v` if and only if `v` is not a multiple of `base` and no multiple of `base` lies in
`[v, 2 ^ 32)`; the value returned is then the least multiple of `base` above `v` less `2 ^ 32`,
which need not be a multiple of `base`: for `v = 4294967293` and `base = 7` it is 3. -/
theorem ensure_multiple_wraps_iff (v base : Nat) (hv : v < 2 ^ 32) (hb : 0 < base)
    (hbase : base < 2 ^ 32) :
    (factory.ensure_multiple v base < v ↔
      (v % base ≠ 0 ∧ ∀ m, v ≤ m → m < 2 ^ 32 → m % base ≠ 0)) ∧
    (factory.ensure_multiple v base < v →
      factory.ensure_multiple v base + 2 ^ 32 = base * (v / base + 1) ∧
      v < base * (v / base + 1) ∧
      (∀ m, m % base = 0 → v < m → base * (v / base + 1) ≤ m)) ∧
    (factory.ensure_multiple 4294967293 7 = 3 ∧ 4294967293 % 7 ≠ 0 ∧ 3 % 7 ≠ 0 ∧
      3 + 2 ^ 32 = 7 * (4294967293 / 7 + 1)) := by
  have hwrap : factory.ensure_multiple v base < v →
      v % base ≠ 0 ∧ 2 ^ 32 ≤ v - v % base + base ∧
      factory.ensure_multiple v base + 2 ^ 32 = v - v % base + base := by
    intro hlt
    by_cases hr : v % base = 0
    · simp only [factory.ensure_multiple, hr, ne_eq, not_true_eq_false, if_false] at hlt
      omega
    · obtain ⟨h1, h2, _⟩ := round_up_bounds v base hb hr
      simp only [factory.ensure_multiple, hr, ne_eq, not_false_eq_true, if_true] at hlt ⊢
      have hge : 2 ^ 32 ≤ v - v % base + base := by
        by_contra hcon
        rw [Nat.mod_eq_of_lt (by omega)] at hlt
        omega
      refine ⟨trivial, hge, ?_⟩
      have hmod := Nat.mod_add_div (v - v % base + base) (2 ^ 32)
      have hdiv : (v - v % base + base) / 2 ^ 32 = 1 := by
        apply Nat.div_eq_of_lt_le <;> omega
      rw [hdiv] at hmod
      omega
  refine ⟨⟨?_, ?_⟩, ?_, by decide⟩
  · intro hlt
    obtain ⟨hr, hge, _⟩ := hwrap hlt
    refine ⟨hr, ?_⟩
    intro m hvm hm32 hm
    have := round_up_least v base m hr hm hvm
    omega
  · rintro ⟨hr, hnone⟩
    obtain ⟨h1, h2, h3⟩ := round_up_bounds v base hb hr
    have hge : 2 ^ 32 ≤ v - v % base + base := by
      by_contra hcon
      exact hnone (v - v % base + base) (by omega) (by omega) h3
    simp only [factory.ensure_multiple, hr, ne_eq, not_false_eq_true, if_true]
    have hmod := Nat.mod_add_div (v - v % base + base) (2 ^ 32)
    have hdiv : (v - v % base + base) / 2 ^ 32 = 1 := by
      apply Nat.div_eq_of_lt_le <;> omega
    rw [hdiv] at hmod
    omega
  · intro hlt
    obtain ⟨hr, _, heq⟩ := hwrap hlt
    obtain ⟨h1, _, _⟩ := round_up_bounds v base hb hr
    rw [← round_up_eq]
    refine ⟨heq, h1, ?_⟩
    intro m hm hvm
    exact round_up_least v base m hr hm (by omega)

/-- Witness for `ensure_multiple_wraps_iff`: three below `2 ^ 32`, rounded up to a multiple of
7, wraps around to 3. -/
theorem ensure_multiple_wraps_iff_witness :
    factory.ensure_multiple 4294967293 7 < 4294967293 ∧
    factory.ensure_multiple 4294967293 7 + 2 ^ 32 = 7 * (4294967293 / 7 + 1) := by
  have h := ensure_multiple_wraps_iff 4294967293 7 (by decide) (by decide) (by decide)
  have hlt : factory.ensure_multiple 4294967293 7 < 4294967293 := by decide
  exact ⟨hlt, (h.2.1 hlt).1⟩

/-! ### Object representations -/

theorem encode_length (o : byteorder) (w v : Nat) : (encode o w v).length = w := by
  cases o <;> simp [encode]

theorem encode_big_eq (w v : Nat) :
    encode byteorder.big w v = (encode byteorder.little w v).reverse := rfl

theorem decode_big_eq (bs : List Nat) :
    decode byteorder.big bs = decode byteorder.little bs.reverse := by
  simp only [decode, List.foldr_reverse]
  congr 1
  funext acc b
  omega

theorem encode_little_succ (w v : Nat) :
    encode byteorder.little (w + 1) v = v % 256 :: encode byteorder.little w (v / 256) := by
  simp only [encode, List.range_succ_eq_map, List.map_cons, List.map_map, pow_zero, Nat.div_one]
  congr 1
  apply List.map_congr_left
  intro j _
  simp only [Function.comp, Nat.succ_eq_add_one, pow_succ]
  rw [Nat.mul_comm, Nat.div_div_eq_div_mul]

theorem decode_encode_little (w : Nat) :
    ∀ v, decode byteorder.little (encode byteorder.little w v) = v % 256 ^ w := by
  induction w with
  | zero => intro v; simp [encode, decode, Nat.mod_one]
  | succ w ih =>
    intro v
    rw [encode_little_succ]
    have h := ih (v / 256)
    simp only [decode] at h ⊢
    rw [List.foldr_cons, h, pow_succ, Nat.mul_comm (256 ^ w) 256, Nat.mod_mul]

theorem decode_encode (o : byteorder) (w v : Nat) : decode o (encode o w v) = v % 256 ^ w := by
  cases o
  · exact decode_encode_little w v
  · rw [decode_big_eq, encode_big_eq, List.reverse_reverse]
    exact decode_encode_little w v

theorem encode_decode_little (bs : List Nat) (hb : ∀ b ∈ bs, b < 256) :
    encode byteorder.little bs.length (decode byteorder.little bs) = bs := by
  induction bs with
  | nil => rfl
  | cons b tl ih =>
    have hb0 : b < 256 := hb b (List.mem_cons_self _ _)
    have htl := ih (fun c hc => hb c (List.mem_cons_of_mem _ hc))
    have hd : decode byteorder.little (b :: tl) = b + 256 * decode byteorder.little tl := rfl
    rw [List.length_cons, encode_little_succ, hd]
    have h1 : (b + 256 * decode byteorder.little tl) % 256 = b := by omega
    have h2 : (b + 256 * decode byteorder.little tl) / 256 = decode byteorder.little tl := by
      omega
    rw [h1, h2, htl]

theorem encode_decode (o : byteorder) (bs : List Nat) (hb : ∀ b ∈ bs, b < 256) :
    encode o bs.length (decode o bs) = bs := by
  cases o
  · exact encode_decode_little bs hb
  · rw [decode_big_eq, encode_big_eq]
    have h := encode_decode_little bs.reverse (fun b hbm => hb b (List.mem_reverse.mp hbm))
    rw [List.length_reverse] at h
    rw [h, List.reverse_reverse]

theorem decode_lt (o : byteorder) (bs : List Nat) (hb : ∀ b ∈ bs, b < 256) :
    decode o bs < 256 ^ bs.length := by
  have h := decode_encode o bs.length (decode o bs)
  rw [encode_decode o bs hb] at h
  have hpos : 0 < 256 ^ bs.length := Nat.pow_pos (by decide)
  rw [h]
  exact Nat.mod_lt _ hpos

/-! ### Integer conversions -/

theorem bits_pow_eq (T : ctype) : 256 ^ T.sizeof = 2 ^ T.bits := by
  unfold ctype.bits
  rw [pow_mul]
  rfl

theorem two_pow_bits (T : ctype) (hpos : 0 < T.sizeof) :
    2 ^ T.bits = 2 * 2 ^ (T.bits - 1) := by
  have hb : T.bits = (T.bits - 1) + 1 := by
    unfold ctype.bits
    omega
  conv_lhs => rw [hb, pow_succ]
  omega

theorem ofInt_cast (T : ctype) (z : Int) :
    ((T.ofInt z : Nat) : Int) = z % ((2 ^ T.bits : Nat) : Int) := by
  unfold ctype.ofInt
  have hpos : (0 : Int) < ((2 ^ T.bits : Nat) : Int) := by
    exact_mod_cast Nat.pow_pos (by decide : 0 < 2)
  have hnn : 0 ≤ z % ((2 ^ T.bits : Nat) : Int) := Int.emod_nonneg _ (by omega)
  push_cast at hnn ⊢
  exact Int.toNat_of_nonneg hnn

theorem ofInt_lt (T : ctype) (z : Int) : T.ofInt z < 2 ^ T.bits := by
  have h := ofInt_cast T z
  have hpos : (0 : Int) < ((2 ^ T.bits : Nat) : Int) := by
    exact_mod_cast Nat.pow_pos (by decide : 0 < 2)
  have hlt := Int.emod_lt_of_pos z hpos
  omega

theorem toInt_cases (T : ctype) (v : Nat) :
    T.toInt v = (v : Int) ∨ T.toInt v = (v : Int) - ((2 ^ T.bits : Nat) : Int) := by
  unfold ctype.toInt
  push_cast
  split
  · exact Or.inr rfl
  · exact Or.inl rfl

theorem ofInt_toInt (T : ctype) (v : Nat) (hv : v < 2 ^ T.bits) : T.ofInt (T.toInt v) = v := by
  have h := ofInt_cast T (T.toInt v)
  have hpos : (0 : Int) < ((2 ^ T.bits : Nat) : Int) := by
    exact_mod_cast Nat.pow_pos (by decide : 0 < 2)
  have hvmod : (v : Int) % ((2 ^ T.bits : Nat) : Int) = (v : Int) :=
    Int.emod_eq_of_lt (by omega) (by exact_mod_cast hv)
  rcases toInt_cases T v with hc | hc
  · rw [hc, hvmod] at h
    rw [hc]
    exact_mod_cast h
  · rw [hc, Int.emod_sub_cancel, hvmod] at h
    rw [hc]
    exact_mod_cast h

theorem toInt_signed_range (T : ctype) (hs : T.is_signed = true) (hpos : 0 < T.sizeof) (v : Nat)
    (hv : v < 2 ^ T.bits) :
    -((2 ^ (T.bits - 1) : Nat) : Int) ≤ T.toInt v ∧ T.toInt v < ((2 ^ (T.bits - 1) : Nat) : Int) := by
  have h2 := two_pow_bits T hpos
  unfold ctype.toInt
  simp only [hs, true_and]
  split
  · have hc : (((2 : Int) ^ T.bits)) = ((2 ^ T.bits : Nat) : Int) := by push_cast; rfl
    rw [hc]
    omega
  · omega

theorem toInt_ofInt_of_range (T : ctype) (hs : T.is_signed = true) (hpos : 0 < T.sizeof)
    (z : Int) (hlo : -((2 ^ (T.bits - 1) : Nat) : Int) ≤ z)
    (hhi : z < ((2 ^ (T.bits - 1) : Nat) : Int)) : T.toInt (T.ofInt z) = z := by
  have h2 := two_pow_bits T hpos
  have hcast := ofInt_cast T z
  have hc : (((2 : Int) ^ T.bits)) = ((2 ^ T.bits : Nat) : Int) := by push_cast; rfl
  by_cases hz : 0 ≤ z
  · have hmod : z % ((2 ^ T.bits : Nat) : Int) = z := Int.emod_eq_of_lt hz (by omega)
    rw [hmod] at hcast
    unfold ctype.toInt
    rw [hc, if_neg (by omega)]
    exact hcast
  · have hmod : z % ((2 ^ T.bits : Nat) : Int) = z + ((2 ^ T.bits : Nat) : Int) := by
      rw [← Int.add_emod_self]
      exact Int.emod_eq_of_lt (by omega) (by omega)
    rw [hmod] at hcast
    unfold ctype.toInt
    rw [hc, if_pos ⟨hs, by omega⟩]
    omega

theorem toInt_ofInt_emod (T : ctype) (z : Int) :
    T.toInt (T.ofInt z) % ((2 ^ T.bits : Nat) : Int) = z % ((2 ^ T.bits : Nat) : Int) := by
  have hcast := ofInt_cast T z
  rcases toInt_cases T (T.ofInt z) with hc | hc
  · rw [hc, hcast, Int.emod_emod]
  · rw [hc, Int.emod_sub_cancel, hcast, Int.emod_emod]

/-! ### The conversion loops -/

theorem assign_typed_eq_switch (C : conversions) (P : target) (T : ctype) (src : List Nat)
    (s : sample) (h : raw_copy P T s.format_ = false) :
    assign_typed C P T src s = assign_typed_switch C P T src s := by
  unfold assign_typed assign_typed_switch
  rw [h]
  rfl

theorem retrieve_typed_eq_switch (C : conversions) (P : target) (T : ctype) (d : List Nat)
    (s : sample) (h : raw_copy P T s.format_ = false) :
    retrieve_typed C P T d s = retrieve_typed_switch C P T d s := by
  unfold retrieve_typed retrieve_typed_switch
  rw [h]
  rfl

theorem store_append (o : byteorder) (F : ctype) (pre rest : List Nat) (i v : Nat)
    (hpre : pre.length = i * F.sizeof) :
    store o F (pre ++ rest) i v = (pre ++ encode o F.sizeof v) ++ rest.drop F.sizeof := by
  unfold store
  rw [← hpre, List.take_left, ← List.drop_drop, List.drop_left]

theorem encode_elements_length (o : byteorder) (w : Nat) (g : Nat → Nat) (k : Nat) :
    ∀ i, (encode_elements o w g k i).length = k * w := by
  induction k with
  | zero => intro i; simp [encode_elements]
  | succ k ih =>
    intro i
    simp only [encode_elements, List.length_append, encode_length, ih, Nat.add_mul, Nat.one_mul]
    omega

theorem assign_loop_eq (C : conversions) (o : byteorder) (T F : ctype) (src : List Nat)
    (k : Nat) :
    ∀ (i : Nat) (pre rest : List Nat), pre.length = i * F.sizeof → k * F.sizeof ≤ rest.length →
      assign_loop C o T F src k i (pre ++ rest) =
        pre ++ (encode_elements o F.sizeof (fun j => cast C T F (load o T src j)) k i ++
          rest.drop (k * F.sizeof)) := by
  induction k with
  | zero => intro i pre rest _ _; simp [assign_loop, encode_elements]
  | succ k ih =>
    intro i pre rest hpre hlen
    rw [Nat.add_mul, Nat.one_mul] at hlen
    have hpre2 : (pre ++ encode o F.sizeof (cast C T F (load o T src i))).length
        = (i + 1) * F.sizeof := by
      simp only [List.length_append, encode_length, Nat.add_mul, Nat.one_mul]
      omega
    have hlen2 : k * F.sizeof ≤ (rest.drop F.sizeof).length := by
      simp only [List.length_drop]
      omega
    have hkw : (k + 1) * F.sizeof = F.sizeof + k * F.sizeof := by
      rw [Nat.add_mul, Nat.one_mul, Nat.add_comm]
    simp only [assign_loop, encode_elements]
    rw [store_append o F pre rest i _ hpre, ih (i + 1) _ _ hpre2 hlen2, List.drop_drop, hkw]
    simp only [List.append_assoc]

theorem retrieve_loop_eq (C : conversions) (o : byteorder) (T F : ctype) (data : List Nat)
    (k : Nat) :
    ∀ (i : Nat) (pre rest : List Nat), pre.length = i * T.sizeof → k * T.sizeof ≤ rest.length →
      retrieve_loop C o T F data k i (pre ++ rest) =
        pre ++ (encode_elements o T.sizeof (fun j => cast C F T (load o F data j)) k i ++
          rest.drop (k * T.sizeof)) := by
  induction k with
  | zero => intro i pre rest _ _; simp [retrieve_loop, encode_elements]
  | succ k ih =>
    intro i pre rest hpre hlen
    rw [Nat.add_mul, Nat.one_mul] at hlen
    have hpre2 : (pre ++ encode o T.sizeof (cast C F T (load o F data i))).length
        = (i + 1) * T.sizeof := by
      simp only [List.length_append, encode_length, Nat.add_mul, Nat.one_mul]
      omega
    have hlen2 : k * T.sizeof ≤ (rest.drop T.sizeof).length := by
      simp only [List.length_drop]
      omega
    have hkw : (k + 1) * T.sizeof = T.sizeof + k * T.sizeof := by
      rw [Nat.add_mul, Nat.one_mul, Nat.add_comm]
    simp only [retrieve_loop, encode_elements]
    rw [store_append o T pre rest i _ hpre, ih (i + 1) _ _ hpre2 hlen2, List.drop_drop, hkw]
    simp only [List.append_assoc]

theorem load_encode_elements (o : byteorder) (F : ctype) (g : Nat → Nat) (k : Nat) :
    ∀ (i : Nat) (pre tail : List Nat) (j : Nat), pre.length = i * F.sizeof → i ≤ j → j < i + k →
      load o F (pre ++ (encode_elements o F.sizeof g k i ++ tail)) j = g j % 256 ^ F.sizeof := by
  induction k with
  | zero => intro i pre tail j _ h1 h2; omega
  | succ k ih =>
    intro i pre tail j hpre hij hjk
    simp only [encode_elements]
    by_cases hji : j = i
    · subst hji
      unfold load
      rw [List.drop_left' hpre, List.append_assoc, List.take_left' (encode_length o _ _),
        decode_encode]
    · have hpre2 : (pre ++ encode o F.sizeof (g i)).length = (i + 1) * F.sizeof := by
        simp only [List.length_append, encode_length, Nat.add_mul, Nat.one_mul]
        omega
      have h := ih (i + 1) (pre ++ encode o F.sizeof (g i)) tail j hpre2 (by omega) (by omega)
      simp only [List.append_assoc] at h ⊢
      exact h

theorem half_range_mono (T F : ctype) (h : T.bits ≤ F.bits) :
    ((2 ^ (T.bits - 1) : Nat) : Int) ≤ ((2 ^ (F.bits - 1) : Nat) : Int) := by
  exact_mod_cast Nat.pow_le_pow_right (by decide : 0 < 2) (by omega : T.bits - 1 ≤ F.bits - 1)

theorem signed_round_trip_value (T F : ctype) (hTs : T.is_signed = true) (hTpos : 0 < T.sizeof)
    (hFs : F.is_signed = true) (hFpos : 0 < F.sizeof) (v : Nat) (hv : v < 2 ^ T.bits) :
    F.toInt (F.ofInt (T.toInt v)) % (2 : Int) ^ F.bits = T.toInt v % (2 : Int) ^ F.bits ∧
    -(2 : Int) ^ (F.bits - 1) ≤ F.toInt (F.ofInt (T.toInt v)) ∧
    F.toInt (F.ofInt (T.toInt v)) < (2 : Int) ^ (F.bits - 1) ∧
    (T.toInt (T.ofInt (F.toInt (F.ofInt (T.toInt v)))) = T.toInt v ↔
      (-(2 : Int) ^ (F.bits - 1) ≤ T.toInt v ∧ T.toInt v < (2 : Int) ^ (F.bits - 1))) ∧
    (T.bits ≤ F.bits → T.toInt (T.ofInt (F.toInt (F.ofInt (T.toInt v)))) = T.toInt v) := by
  have hcF : ((2 ^ (F.bits - 1) : Nat) : Int) = (2 : Int) ^ (F.bits - 1) := by push_cast; rfl
  have hcFb : ((2 ^ F.bits : Nat) : Int) = (2 : Int) ^ F.bits := by push_cast; rfl
  have hX := toInt_signed_range T hTs hTpos v hv
  have hY := toInt_signed_range F hFs hFpos (F.ofInt (T.toInt v)) (ofInt_lt F _)
  have hmod := toInt_ofInt_emod F (T.toInt v)
  have hback : T.toInt (T.ofInt (T.toInt v)) = T.toInt v := by rw [ofInt_toInt T v hv]
  have hin : (-((2 ^ (F.bits - 1) : Nat) : Int) ≤ T.toInt v ∧
      T.toInt v < ((2 ^ (F.bits - 1) : Nat) : Int)) →
      T.toInt (T.ofInt (F.toInt (F.ofInt (T.toInt v)))) = T.toInt v := by
    intro h
    rw [toInt_ofInt_of_range F hFs hFpos _ h.1 h.2, hback]
  rw [← hcF, ← hcFb]
  refine ⟨hmod, hY.1, hY.2, ⟨?_, hin⟩, ?_⟩
  · intro hR
    by_cases hle : T.bits ≤ F.bits
    · have hm := half_range_mono T F hle
      omega
    · have hm := half_range_mono F T (by omega)
      have hYT : T.toInt (T.ofInt (F.toInt (F.ofInt (T.toInt v)))) =
          F.toInt (F.ofInt (T.toInt v)) :=
        toInt_ofInt_of_range T hTs hTpos _ (by omega) (by omega)
      rw [hYT] at hR
      rw [← hR]
      exact hY
  · intro hle
    have hm := half_range_mono T F hle
    exact hin ⟨by omega, by omega⟩

theorem load_lt (o : byteorder) (T : ctype) (x : List Nat) (i : Nat)
    (hb : ∀ b ∈ x, b < 256) (hlen : i * T.sizeof + T.sizeof ≤ x.length) :
    load o T x i < 2 ^ T.bits := by
  unfold load
  have hl : ((x.drop (i * T.sizeof)).take T.sizeof).length = T.sizeof := by
    simp only [List.length_take, List.length_drop]
    omega
  have hbs : ∀ b ∈ (x.drop (i * T.sizeof)).take T.sizeof, b < 256 :=
    fun b hbm => hb b (List.mem_of_mem_drop (List.mem_of_mem_take hbm))
  have h := decode_lt o _ hbs
  rw [hl, bits_pow_eq] at h
  exact h

theorem element_index_bound (i n w : Nat) (hi : i < n) : i * w + w ≤ n * w := by
  have h : (i + 1) * w ≤ n * w := Nat.mul_le_mul_right _ hi
  rw [Nat.add_mul, Nat.one_mul] at h
  exact h

theorem integer_element_type_facts (P : target) (f : lsl_channel_format_t) (F : ctype)
    (h : integer_element_type f = some F) :
    format_size_of P f = F.sizeof ∧ F.is_integral = true ∧ F.is_signed = true ∧
    0 < F.sizeof ∧ format_integral_of f = true := by
  cases f <;> simp only [integer_element_type, reduceCtorEq, Option.some.injEq] at h <;>
    subst h <;> exact ⟨rfl, rfl, rfl, by decide, rfl⟩

theorem assign_typed_switch_integer (C : conversions) (P : target) (T F : ctype)
    (src : List Nat) (s : sample) (h : integer_element_type s.format_ = some F) :
    assign_typed_switch C P T src s =
      outcome.returned
        { s with data_ := assign_loop C P.native T F src s.num_channels_ 0 s.data_ } := by
  unfold assign_typed_switch
  cases hf : s.format_ <;> rw [hf] at h <;>
    simp only [integer_element_type, reduceCtorEq, Option.some.injEq] at h <;> subst h <;> rfl

theorem retrieve_typed_switch_integer (C : conversions) (P : target) (T F : ctype)
    (d : List Nat) (s : sample) (h : integer_element_type s.format_ = some F) :
    retrieve_typed_switch C P T d s =
      outcome.returned (s, retrieve_loop C P.native T F s.data_ s.num_channels_ 0 d) := by
  unfold retrieve_typed_switch
  cases hf : s.format_ <;> rw [hf] at h <;>
    simp only [integer_element_type, reduceCtorEq, Option.some.injEq] at h <;> subst h <;> rfl

theorem load_assign_loop (C : conversions) (o : byteorder) (T F : ctype) (src data : List Nat)
    (n i : Nat) (hi : i < n) (hlen : n * F.sizeof ≤ data.length) :
    load o F (assign_loop C o T F src n 0 data) i = cast C T F (load o T src i) % 256 ^ F.sizeof := by
  have h := assign_loop_eq C o T F src n 0 [] data (by simp) hlen
  rw [List.nil_append] at h
  rw [h]
  exact load_encode_elements o F _ n 0 [] _ i (by simp) (by omega) (by omega)

theorem load_retrieve_loop (C : conversions) (o : byteorder) (T F : ctype) (data d : List Nat)
    (n i : Nat) (hi : i < n) (hlen : n * T.sizeof ≤ d.length) :
    load o T (retrieve_loop C o T F data n 0 d) i = cast C F T (load o F data i) % 256 ^ T.sizeof := by
  have h := retrieve_loop_eq C o T F data n 0 [] d (by simp) hlen
  rw [List.nil_append] at h
  rw [h]
  exact load_encode_elements o T _ n 0 [] _ i (by simp) (by omega) (by omega)

theorem cast_integral (C : conversions) (S D : ctype) (v : Nat) (hS : S.is_integral = true)
    (hD : D.is_integral = true) : cast C S D v % 256 ^ D.sizeof = D.ofInt (S.toInt v) := by
  unfold cast
  rw [if_pos ⟨hS, hD⟩, bits_pow_eq]
  exact Nat.mod_eq_of_lt (ofInt_lt D _)

/-! ### C15: signed integer conversions -/

/-- C15: for a signed integer type `T` and a sample of a signed integer format with element
type `F` of another size, on an array `x` of `n` values of `T`: `assign_typed<T>(x)` followed by
`retrieve_typed<T>(d)` returns normally; each stored element is the value of `x[i]` reduced
modulo `2 ^ w` into `[-2 ^ (w - 1), 2 ^ (w - 1))`, with `w` the bits of `F`; each element of `d`
is the stored value converted to `T`; it equals `x[i]` if and only if `x[i]` lies in that range,
and always when `T` has no more bits than `F`. -/
theorem signed_integer_round_trip (C : conversions) (P : target) (T F : ctype) (s : sample)
    (x d : List Nat)
    (hF : integer_element_type s.format_ = some F)
    (hTi : T.is_integral = true) (hTs : T.is_signed = true) (hTpos : 0 < T.sizeof)
    (hmis : T.sizeof ≠ F.sizeof)
    (hx : x.length = s.num_channels_ * T.sizeof) (hbytes : ∀ b ∈ x, b < 256)
    (hp : s.num_channels_ * F.sizeof ≤ s.data_.length)
    (hd : s.num_channels_ * T.sizeof ≤ d.length) :
    ∃ s1 d1, assign_typed C P T x s = outcome.returned s1 ∧
      retrieve_typed C P T d s1 = outcome.returned (s1, d1) ∧
      ∀ i, i < s.num_channels_ →
        load P.native F s1.data_ i = F.ofInt (T.toInt (load P.native T x i)) ∧
        load P.native T d1 i = T.ofInt (F.toInt (load P.native F s1.data_ i)) ∧
        F.toInt (load P.native F s1.data_ i) % (2 : Int) ^ F.bits =
          T.toInt (load P.native T x i) % (2 : Int) ^ F.bits ∧
        -(2 : Int) ^ (F.bits - 1) ≤ F.toInt (load P.native F s1.data_ i) ∧
        F.toInt (load P.native F s1.data_ i) < (2 : Int) ^ (F.bits - 1) ∧
        (T.toInt (load P.native T d1 i) = T.toInt (load P.native T x i) ↔
          (-(2 : Int) ^ (F.bits - 1) ≤ T.toInt (load P.native T x i) ∧
            T.toInt (load P.native T x i) < (2 : Int) ^ (F.bits - 1))) ∧
        (load P.native T d1 i = load P.native T x i ↔
          (-(2 : Int) ^ (F.bits - 1) ≤ T.toInt (load P.native T x i) ∧
            T.toInt (load P.native T x i) < (2 : Int) ^ (F.bits - 1))) ∧
        (T.bits ≤ F.bits → load P.native T d1 i = load P.native T x i) := by
  obtain ⟨hsize, hFi, hFs, hFpos, _⟩ := integer_element_type_facts P s.format_ F hF
  have hraw : raw_copy P T s.format_ = false := by
    simp only [raw_copy, hsize, hmis, decide_False, Bool.false_and]
  refine ⟨{ s with data_ := assign_loop C P.native T F x s.num_channels_ 0 s.data_ },
    retrieve_loop C P.native T F (assign_loop C P.native T F x s.num_channels_ 0 s.data_)
      s.num_channels_ 0 d, ?_, ?_, ?_⟩
  · rw [assign_typed_eq_switch C P T x s hraw, assign_typed_switch_integer C P T F x s hF]
  · exact (retrieve_typed_eq_switch C P T d
      { s with data_ := assign_loop C P.native T F x s.num_channels_ 0 s.data_ } hraw).trans
      (retrieve_typed_switch_integer C P T F d
        { s with data_ := assign_loop C P.native T F x s.num_channels_ 0 s.data_ } hF)
  · intro i hi
    have hv : load P.native T x i < 2 ^ T.bits :=
      load_lt P.native T x i hbytes (by rw [hx]; exact element_index_bound i _ _ hi)
    have hst : load P.native F (assign_loop C P.native T F x s.num_channels_ 0 s.data_) i =
        F.ofInt (T.toInt (load P.native T x i)) := by
      rw [load_assign_loop C P.native T F x s.data_ _ i hi hp, cast_integral C T F _ hTi hFi]
    have hrt : load P.native T (retrieve_loop C P.native T F
        (assign_loop C P.native T F x s.num_channels_ 0 s.data_) s.num_channels_ 0 d) i =
        T.ofInt (F.toInt (load P.native F
          (assign_loop C P.native T F x s.num_channels_ 0 s.data_) i)) := by
      rw [load_retrieve_loop C P.native T F _ d _ i hi hd, cast_integral C F T _ hFi hTi]
    obtain ⟨h1, h2, h3, h4, h5⟩ :=
      signed_round_trip_value T F hTs hTpos hFs hFpos (load P.native T x i) hv
    simp only
    rw [hrt, hst]
    refine ⟨rfl, rfl, h1, h2, h3, h4, ?_, ?_⟩
    · rw [← h4]
      constructor
      · intro h
        rw [h]
      · intro h
        have h6 := congrArg T.ofInt h
        rw [ofInt_toInt T _ (ofInt_lt T _), ofInt_toInt T _ hv] at h6
        exact h6
    · intro hle
      have h6 := congrArg T.ofInt (h5 hle)
      rw [ofInt_toInt T _ (ofInt_lt T _), ofInt_toInt T _ hv] at h6
      exact h6

/-- Witness for `signed_integer_round_trip`: the int32 values 70000 and -1 on a two channel
int16 sample; 70000 is stored as 4464. -/
theorem signed_integer_round_trip_witness :
    ∃ s1 d1,
      assign_typed no_conversions x86_64_linux ctype.int32_t [112, 17, 1, 0, 255, 255, 255, 255]
        (sample.sample cft_int16 2 [0, 0, 0, 0]) = outcome.returned s1 ∧
      retrieve_typed no_conversions x86_64_linux ctype.int32_t [0, 0, 0, 0, 0, 0, 0, 0] s1
        = outcome.returned (s1, d1) ∧
      load byteorder.little ctype.int16_t s1.data_ 0 = 4464 ∧
      load byteorder.little ctype.int32_t d1 1 = 4294967295 := by
  obtain ⟨s1, d1, h1, h2, h3⟩ :=
    signed_integer_round_trip no_conversions x86_64_linux ctype.int32_t ctype.int16_t
      (sample.sample cft_int16 2 [0, 0, 0, 0]) [112, 17, 1, 0, 255, 255, 255, 255]
      [0, 0, 0, 0, 0, 0, 0, 0] rfl rfl rfl (by decide) (by decide) (by decide) (by decide)
      (by decide) (by decide)
  refine ⟨s1, d1, h1, h2, ?_, ?_⟩
  · exact ((h3 0 (by decide)).1).trans (by decide)
  · have h4 := (h3 1 (by decide)).2.2.2.2.2.2.1
    exact (h4.mpr (by decide)).trans (by decide)

/-! ### C17: the raw copy against the conversion switch -/

theorem ofInt_toInt_same_bits (S D : ctype) (hbits : D.bits = S.bits) (v : Nat)
    (hv : v < 2 ^ S.bits) : D.ofInt (S.toInt v) = v := by
  have h := ofInt_cast D (S.toInt v)
  rw [hbits] at h
  have hvmod : (v : Int) % ((2 ^ S.bits : Nat) : Int) = (v : Int) :=
    Int.emod_eq_of_lt (by omega) (by exact_mod_cast hv)
  rcases toInt_cases S v with hc | hc
  · rw [hc, hvmod] at h
    rw [hc]
    exact_mod_cast h
  · rw [hc, Int.emod_sub_cancel, hvmod] at h
    rw [hc]
    exact_mod_cast h

theorem encode_cast_load (C : conversions) (o : byteorder) (S D : ctype) (src : List Nat)
    (j : Nat) (hS : S.is_integral = true) (hD : D.is_integral = true)
    (hsz : S.sizeof = D.sizeof) (hb : ∀ b ∈ src, b < 256)
    (hlen : j * D.sizeof + D.sizeof ≤ src.length) :
    encode o D.sizeof (cast C S D (load o S src j)) = (src.drop (j * D.sizeof)).take D.sizeof := by
  have hbits : D.bits = S.bits := by unfold ctype.bits; rw [hsz]
  have hv : load o S src j < 2 ^ S.bits := load_lt o S src j hb (by rw [hsz]; exact hlen)
  have hcast : cast C S D (load o S src j) = load o S src j := by
    unfold cast
    rw [if_pos ⟨hS, hD⟩]
    exact ofInt_toInt_same_bits S D hbits _ hv
  have hl : ((src.drop (j * D.sizeof)).take D.sizeof).length = D.sizeof := by
    simp only [List.length_take, List.length_drop]
    omega
  have hbs : ∀ b ∈ (src.drop (j * D.sizeof)).take D.sizeof, b < 256 :=
    fun b hbm => hb b (List.mem_of_mem_drop (List.mem_of_mem_take hbm))
  have h := encode_decode o _ hbs
  rw [hl] at h
  rw [hcast]
  unfold load
  rw [hsz]
  exact h

theorem encode_elements_copy (C : conversions) (o : byteorder) (S D : ctype) (src : List Nat)
    (hS : S.is_integral = true) (hD : D.is_integral = true) (hsz : S.sizeof = D.sizeof)
    (hb : ∀ b ∈ src, b < 256) (k : Nat) :
    ∀ i, (i + k) * D.sizeof ≤ src.length →
      encode_elements o D.sizeof (fun j => cast C S D (load o S src j)) k i =
        (src.drop (i * D.sizeof)).take (k * D.sizeof) := by
  induction k with
  | zero => intro i _; simp [encode_elements]
  | succ k ih =>
    intro i hlen
    have hlen1 : i * D.sizeof + D.sizeof ≤ src.length := by
      have h : (i + 1) * D.sizeof ≤ (i + (k + 1)) * D.sizeof :=
        Nat.mul_le_mul_right _ (by omega)
      rw [Nat.add_mul, Nat.one_mul] at h
      omega
    have hlen2 : (i + 1 + k) * D.sizeof ≤ src.length := by
      have h : i + 1 + k = i + (k + 1) := by omega
      rw [h]
      exact hlen
    have hkw : (k + 1) * D.sizeof = D.sizeof + k * D.sizeof := by
      rw [Nat.add_mul, Nat.one_mul, Nat.add_comm]
    have hiw : (i + 1) * D.sizeof = i * D.sizeof + D.sizeof := by
      rw [Nat.add_mul, Nat.one_mul]
    simp only [encode_elements]
    rw [encode_cast_load C o S D src i hS hD hsz hb hlen1, ih (i + 1) hlen2, hkw, List.take_add,
      List.drop_drop, hiw]

theorem raw_copy_iff_matches (P : target) (T : ctype) (f : lsl_channel_format_t)
    (hnum : T.is_integral ≠ T.is_floating_point) :
    raw_copy P T f = true ↔ matches_format P T f := by
  unfold raw_copy matches_format
  cases hi : T.is_integral <;> cases hp : T.is_floating_point <;> rw [hi, hp] at hnum <;>
    cases f <;>
    simp_all [format_integral_of, format_float_of, format_integral, format_float,
      lsl_channel_format_t.toNat]

theorem raw_copy_integral_format (P : target) (T : ctype) (f : lsl_channel_format_t)
    (hTf : T.is_floating_point = false) (hraw : raw_copy P T f = true) :
    ∃ F, integer_element_type f = some F ∧ T.sizeof = F.sizeof ∧ F.is_integral = true := by
  unfold raw_copy at hraw
  cases f <;>
    simp [hTf, format_integral_of, format_float_of, format_integral, format_float,
      format_size_of, format_sizes, lsl_channel_format_t.toNat] at hraw
  · exact ⟨ctype.int32_t, rfl, hraw.1, rfl⟩
  · exact ⟨ctype.int16_t, rfl, hraw.1, rfl⟩
  · exact ⟨ctype.int8_t, rfl, hraw.1, rfl⟩
  · exact ⟨ctype.int64_t, rfl, hraw.1, rfl⟩

/-- C17: for a numeric type the raw copy of `assign_typed<T>` and `retrieve_typed<T>` is taken
exactly when `sizeof(T)` is the byte size of the format and the numeric class of `T` is that of
the format; and when it is taken for an integer type `T`, the sample that `assign_typed<T>`
leaves and the destination that `retrieve_typed<T>` leaves are those that the conversion switch
would leave, element by element cast, for that format. -/
theorem raw_copy_agrees_with_switch (C : conversions) (P : target) (T : ctype) (s : sample)
    (src d : List Nat)
    (hTi : T.is_integral = true) (hTf : T.is_floating_point = false)
    (hraw : raw_copy P T s.format_ = true)
    (hn : s.num_channels_ < 2 ^ 32)
    (hsrc : s.num_channels_ * T.sizeof ≤ src.length) (hsrcb : ∀ b ∈ src, b < 256)
    (hp : s.num_channels_ * T.sizeof ≤ s.data_.length) (hpb : ∀ b ∈ s.data_, b < 256)
    (hd : s.num_channels_ * T.sizeof ≤ d.length) :
    (∀ (U : ctype) (f : lsl_channel_format_t), U.is_integral ≠ U.is_floating_point →
      (raw_copy P U f = true ↔ matches_format P U f)) ∧
    matches_format P T s.format_ ∧
    assign_typed C P T src s = assign_typed_switch C P T src s ∧
    retrieve_typed C P T d s = retrieve_typed_switch C P T d s ∧
    (assign_typed C P T src s).state.data_ = (assign_typed_switch C P T src s).state.data_ ∧
    (retrieve_typed C P T d s).state.2 = (retrieve_typed_switch C P T d s).state.2 := by
  obtain ⟨F, hF, hsz, hFi⟩ := raw_copy_integral_format P T s.format_ hTf hraw
  have hsize := (integer_element_type_facts P s.format_ F hF).1
  have hk : datasize P s = s.num_channels_ * F.sizeof := by
    rw [datasize_exact P s hn, hsize]
  rw [hsz] at hsrc hp hd
  have hA : assign_typed C P T src s = assign_typed_switch C P T src s := by
    rw [assign_typed_switch_integer C P T F src s hF]
    simp only [assign_typed, hraw, if_true, hk]
    have h := assign_loop_eq C P.native T F src s.num_channels_ 0 [] s.data_ (by simp) hp
    rw [List.nil_append, List.nil_append] at h
    rw [h, encode_elements_copy C P.native T F src hTi hFi hsz hsrcb s.num_channels_ 0
      (by simpa using hsrc)]
    simp [memcpy]
  have hR : retrieve_typed C P T d s = retrieve_typed_switch C P T d s := by
    rw [retrieve_typed_switch_integer C P T F d s hF]
    simp only [retrieve_typed, hraw, if_true, hk]
    have h := retrieve_loop_eq C P.native T F s.data_ s.num_channels_ 0 [] d (by simp)
      (by rw [hsz]; exact hd)
    rw [List.nil_append, List.nil_append] at h
    rw [h, encode_elements_copy C P.native F T s.data_ hFi hTi hsz.symm hpb s.num_channels_ 0
      (by rw [hsz]; simpa using hp), hsz]
    simp [memcpy]
  refine ⟨fun U f hU => raw_copy_iff_matches P U f hU, ?_, hA, hR, by rw [hA], by rw [hR]⟩
  exact (raw_copy_iff_matches P T s.format_ (by rw [hTi, hTf]; decide)).mp hraw

/-- Witness for `raw_copy_agrees_with_switch`: `T = uint16_t` on a two channel int16 sample. -/
theorem raw_copy_agrees_with_switch_witness :
    assign_typed no_conversions x86_64_linux ctype.uint16_t [1, 2, 255, 255]
        (sample.sample cft_int16 2 [9, 9, 9, 9]) =
      assign_typed_switch no_conversions x86_64_linux ctype.uint16_t [1, 2, 255, 255]
        (sample.sample cft_int16 2 [9, 9, 9, 9]) ∧
    retrieve_typed no_conversions x86_64_linux ctype.uint16_t [7, 7, 7, 7, 7]
        (sample.sample cft_int16 2 [9, 9, 9, 9]) =
      retrieve_typed_switch no_conversions x86_64_linux ctype.uint16_t [7, 7, 7, 7, 7]
        (sample.sample cft_int16 2 [9, 9, 9, 9]) ∧
    (assign_typed_switch no_conversions x86_64_linux ctype.uint16_t [1, 2, 255, 255]
        (sample.sample cft_int16 2 [9, 9, 9, 9])).state.data_ = [1, 2, 255, 255] := by
  have h := raw_copy_agrees_with_switch no_conversions x86_64_linux ctype.uint16_t
    (sample.sample cft_int16 2 [9, 9, 9, 9]) [1, 2, 255, 255] [7, 7, 7, 7, 7] rfl rfl
    (by decide) (by decide) (by decide) (by decide) (by decide) (by decide) (by decide)
  exact ⟨h.2.2.1, h.2.2.2.1, by decide⟩

end lsl
